import Mathlib

/-!
# ARingZZp: integers mod p stored as exponents of a primitive element

Shallow embedding of `M2/Macaulay2/e/aring-zzp.hpp`.

* The C type `int` (`elem`, `ElementType`) is a 32-bit two's complement
  integer, modelled as an `Int` together with `wrap32`, the value an `int`
  holds after an exact result is stored in it. In `add`, `subtract`,
  `subtract_multiple`, `mult` and `power` every result of `+`, `-`, `*` is
  stored through `wrap32`. In `negate`, `invert`, `divide` and
  `set_from_int` the results `p - a`, `p1 - a`, `a - b`, `c + p1`, `a + p`
  are written without it: for a prime `p` that fits an `int` and element
  operands of `[0,p-1]` (any `int` for `set_from_int`) they lie in the
  range of `int`.
* The two tables `int *log_table`, `int *exp_table` are partial maps from
  an index to the stored value: `none` is a read outside the allocation.
  They are filled by `initialize_tables`, whose body is not part of the
  header, so they are fields of the ring and the data-model invariant on
  them is the hypothesis `TableInvariant`.
* A member function `void f(elem &result, ...)` becomes a function that
  returns the final value of `result`; it is `Option`-valued exactly when
  it reads a table.
* The definitions `add_exact`, `subtract_exact`, `subtract_multiple_exact`,
  `mult_exact`, `power_exact` are not functions of the program: they are
  the same formulas over the unbounded integers, the reference against
  which overflow is stated and through which the results on the program
  are proved.
-/

namespace M2

/-- A table `int *t; // 0..p-1`: reading index `i` gives `t i`. -/
abbrev Table := Int → Option Int

/-- The table holding the values `xs` at the indices `0 .. xs.length - 1`. -/
def Table.ofList (xs : List Int) : Table :=
  fun i => if 0 ≤ i then xs.get? i.toNat else none

/-- The private data members of `class ARingZZp`. -/
structure ARingZZp where
  p : Int
  p1 : Int
  minus_one : Int
  prim_root : Int
  log_table : Table
  exp_table : Table

namespace ARingZZp

/-- C's `a % b` on `int`: the remainder of the division truncating to zero. -/
def cmod (a b : Int) : Int := Int.tmod a b

/-- The value of a 32-bit two's complement `int` after the exact result `x`
is stored in it: the representative of `x` modulo `2^32` in
`[-2^31, 2^31)`. -/
def wrap32 (x : Int) : Int := (x + 2147483648) % 4294967296 - 2147483648

/-- The exact result `x` is a value of a 32-bit `int`. -/
def fits32 (x : Int) : Prop := -2147483648 ≤ x ∧ x ≤ 2147483647

instance (x : Int) : Decidable (fits32 x) := by
  unfold fits32
  infer_instance

def is_unit (_R : ARingZZp) (f : Int) : Bool := f != 0

def is_zero (_R : ARingZZp) (f : Int) : Bool := f == 0

def is_equal (_R : ARingZZp) (f g : Int) : Bool := f == g

def compare_elems (R : ARingZZp) (f g : Int) : Option Int := do
  let a ← R.exp_table f
  let b ← R.exp_table g
  if a < b then return -1
  if a > b then return 1
  return 0

def get_int (R : ARingZZp) (f : Int) : Option Int := R.exp_table f

def get_repr (_R : ARingZZp) (f : Int) : Int := f

def set_zero (_R : ARingZZp) : Int := 0

def set_from_int (R : ARingZZp) (a : Int) : Option Int :=
  let a := cmod a R.p
  let a := if a < 0 then a + R.p else a
  R.log_table a

/-- Here `a` is the value of the `mpz_ptr`; `mpz_fdiv_ui(a, p)` is the
remainder of the floor division of `a` by `p`. -/
def set_from_mpz (R : ARingZZp) (a : Int) : Option Int :=
  let b := Int.fmod a R.p
  R.log_table b

def negate (R : ARingZZp) (a : Int) : Int :=
  if a ≠ 0 then R.p - a else 0

def invert (R : ARingZZp) (a : Int) : Int :=
  let result := R.p1 - a
  if result = 0 then R.p1 else result

def add (R : ARingZZp) (a b : Int) : Option Int := do
  let e1 ← R.exp_table a
  let e2 ← R.exp_table b
  let n := wrap32 (e1 + e2)
  let n := if n ≥ R.p then wrap32 (n - R.p) else n
  R.log_table n

def subtract (R : ARingZZp) (a b : Int) : Option Int := do
  let e1 ← R.exp_table a
  let e2 ← R.exp_table b
  let n := wrap32 (e1 - e2)
  let n := if n < 0 then wrap32 (n + R.p) else n
  R.log_table n

/-- The first argument is the value of `result` on entry. -/
def subtract_multiple (R : ARingZZp) (result a b : Int) : Option Int := do
  let ab := wrap32 (a + b)
  let ab := if ab > R.p1 then wrap32 (ab - R.p1) else ab
  let x ← R.exp_table result
  let y ← R.exp_table ab
  let n := wrap32 (x - y)
  let n := if n < 0 then wrap32 (n + R.p) else n
  R.log_table n

def mult (R : ARingZZp) (a b : Int) : Int :=
  if a ≠ 0 ∧ b ≠ 0 then
    let c := wrap32 (a + b)
    if c > R.p1 then wrap32 (c - R.p1) else c
  else 0

def divide (R : ARingZZp) (a b : Int) : Int :=
  if a ≠ 0 ∧ b ≠ 0 then
    let c := a - b
    if c ≤ 0 then c + R.p1 else c
  else 0

def power (R : ARingZZp) (a n : Int) : Int :=
  if a ≠ 0 then
    let result := cmod (wrap32 (a * n)) R.p1
    if result ≤ 0 then wrap32 (result + R.p1) else result
  else 0

/-- Here `n` is the value of the `mpz_ptr`; `mpz_fdiv_ui(n, p1)` is the
remainder of the floor division of `n` by `p1`. -/
def power_mpz (R : ARingZZp) (a n : Int) : Int :=
  let n1 := Int.fmod n R.p1
  power R a n1

/-- Here `n`, `d` are the values of `mpq_numref(a)` and `mpq_denref(a)`. -/
def set_from_mpq (R : ARingZZp) (n d : Int) : Option Int := do
  let n ← set_from_mpz R n
  let d ← set_from_mpz R d
  return divide R n d

/-! ### The exact reference

The formulas of `add`, `subtract`, `subtract_multiple`, `mult` and `power`
over the unbounded integers. They are not functions of the program. -/

/-- The formula of `add` over the unbounded integers. -/
def add_exact (R : ARingZZp) (a b : Int) : Option Int := do
  let e1 ← R.exp_table a
  let e2 ← R.exp_table b
  let n := e1 + e2
  let n := if n ≥ R.p then n - R.p else n
  R.log_table n

/-- The formula of `subtract` over the unbounded integers. -/
def subtract_exact (R : ARingZZp) (a b : Int) : Option Int := do
  let e1 ← R.exp_table a
  let e2 ← R.exp_table b
  let n := e1 - e2
  let n := if n < 0 then n + R.p else n
  R.log_table n

/-- The formula of `subtract_multiple` over the unbounded integers. -/
def subtract_multiple_exact (R : ARingZZp) (result a b : Int) : Option Int := do
  let ab := a + b
  let ab := if ab > R.p1 then ab - R.p1 else ab
  let x ← R.exp_table result
  let y ← R.exp_table ab
  let n := x - y
  let n := if n < 0 then n + R.p else n
  R.log_table n

/-- The formula of `mult` over the unbounded integers. -/
def mult_exact (R : ARingZZp) (a b : Int) : Int :=
  if a ≠ 0 ∧ b ≠ 0 then
    let c := a + b
    if c > R.p1 then c - R.p1 else c
  else 0

/-- The formula of `power` over the unbounded integers. -/
def power_exact (R : ARingZZp) (a n : Int) : Int :=
  if a ≠ 0 then
    let result := cmod (a * n) R.p1
    if result ≤ 0 then result + R.p1 else result
  else 0

/-- The data-model invariant of the tables: `p` is prime, `p1` is `p-1`,
`exp_table[0] = 0`, `exp_table[e] = prim_root^e mod p` for `1 ≤ e ≤ p-1`,
and `log_table[exp_table[e]] = e` for `0 ≤ e ≤ p-1`. -/
def TableInvariant (R : ARingZZp) : Prop :=
  Nat.Prime R.p.toNat ∧ R.p1 = R.p - 1 ∧
  R.exp_table 0 = some 0 ∧
  (∀ e : Int, 1 ≤ e → e < R.p →
      R.exp_table e = some (R.prim_root ^ e.toNat % R.p)) ∧
  (∀ e : Int, 0 ≤ e → e < R.p → (R.exp_table e).bind R.log_table = some e)

/-- The field of 5 elements with primitive root 2: the powers of 2 are
2, 4, 3, 1. -/
def zz5 : ARingZZp where
  p := 5
  p1 := 4
  minus_one := 2
  prim_root := 2
  log_table := Table.ofList [0, 4, 1, 3, 2]
  exp_table := Table.ofList [0, 2, 4, 3, 1]

/-- The field of 5 elements with the other primitive root, 3: the powers
of 3 are 3, 4, 2, 1. -/
def zz5b : ARingZZp where
  p := 5
  p1 := 4
  minus_one := 2
  prim_root := 3
  log_table := Table.ofList [0, 4, 3, 1, 2]
  exp_table := Table.ofList [0, 3, 4, 2, 1]

/-- The field of 2 elements, primitive root 1. -/
def zz2 : ARingZZp where
  p := 2
  p1 := 1
  minus_one := 1
  prim_root := 1
  log_table := Table.ofList [0, 1]
  exp_table := Table.ofList [0, 1]

/-- The field of 7 elements with primitive root 3: the powers of 3 are
3, 2, 6, 4, 5, 1. -/
def zz7 : ARingZZp where
  p := 7
  p1 := 6
  minus_one := 3
  prim_root := 3
  log_table := Table.ofList [0, 6, 2, 1, 4, 5, 3]
  exp_table := Table.ofList [0, 3, 2, 6, 4, 5, 1]

/-! ### The tables of a large prime

A table of `2^31 - 1` entries cannot be written out; it is given by the
function that computes each entry. -/

/-- The loop of `powmod`: `acc * b^e mod m` by repeated squaring, at most
`fuel` squarings. -/
def powmodAux : Nat → Nat → Nat → Nat → Nat → Nat
  | 0, _, _, _, acc => acc
  | fuel + 1, b, e, m, acc =>
    if e = 0 then acc
    else powmodAux fuel (b * b % m) (e / 2) m (if e % 2 = 1 then acc * b % m else acc)

/-- The power `b^e mod m`, by repeated squaring. -/
def powmod (b e m : Nat) : Nat := powmodAux e (b % m) e m (1 % m)

/-- Modelled from the spec: `exp_table` as `initialize_tables` leaves it for
the prime `p` and the primitive root `g`; index 0 holds 0 and an index `e`
of `[1,p-1]` holds `g^e mod p` (spec 4.2, "TableBuilder"). The entry is
computed by repeated squaring instead of being read from an array. -/
def expTable (p g : Nat) : Table :=
  fun e =>
    if e = 0 then some 0
    else if 1 ≤ e ∧ e < (p : Int) then some (powmod g e.toNat p : Nat)
    else none

/-- Modelled from the spec: `log_table` as `initialize_tables` leaves it for
the prime `p` and the primitive root `g`; index 0 holds 0 and a residue `v`
of `[1,p-1]` holds the exponent `e` of `[1,p-1]` with `g^e mod p = v`
(spec 4.2, "TableBuilder"). The entry is found by search instead of being
read from an array. -/
def logTable (p g : Nat) : Table :=
  fun v =>
    if v = 0 then some 0
    else if 1 ≤ v ∧ v < (p : Int) then
      ((List.range p).find? fun e => decide (1 ≤ e) && powmod g e p == v.toNat).map
        fun e => (e : Int)
    else none

/-- The field of `2^31 - 1 = INT_MAX` elements with primitive root 7. -/
def zzM31 : ARingZZp where
  p := 2147483647
  p1 := 2147483646
  minus_one := 1073741823
  prim_root := 7
  log_table := logTable 2147483647 7
  exp_table := expTable 2147483647 7

theorem zz5_inv : TableInvariant zz5 := by
  refine ⟨Nat.prime_five, rfl, rfl, ?_, ?_⟩
  · intro e h1 h2
    have h2' : e < 5 := h2
    interval_cases e <;> rfl
  · intro e h1 h2
    have h2' : e < 5 := h2
    interval_cases e <;> rfl

theorem zz5b_inv : TableInvariant zz5b := by
  refine ⟨Nat.prime_five, rfl, rfl, ?_, ?_⟩
  · intro e h1 h2
    have h2' : e < 5 := h2
    interval_cases e <;> rfl
  · intro e h1 h2
    have h2' : e < 5 := h2
    interval_cases e <;> rfl

theorem zz2_inv : TableInvariant zz2 := by
  refine ⟨Nat.prime_two, rfl, rfl, ?_, ?_⟩
  · intro e h1 h2
    have h2' : e < 2 := h2
    interval_cases e
    rfl
  · intro e h1 h2
    have h2' : e < 2 := h2
    interval_cases e <;> rfl

/-! ## Consequences of the table invariant -/

theorem range_surj_of_inj (n : Nat) (f : Nat → Nat) (hf : ∀ i < n, f i < n)
    (hinj : ∀ i < n, ∀ j < n, f i = f j → i = j) :
    ∀ v < n, ∃ i < n, f i = v := by
  intro v hv
  have key := Finset.surj_on_of_inj_on_of_card_le
    (fun (a : Nat) (_ : a ∈ Finset.range n) => f a)
    (fun a ha => Finset.mem_range.mpr (hf a (Finset.mem_range.mp ha)))
    (fun a b ha hb hab =>
      hinj a (Finset.mem_range.mp ha) b (Finset.mem_range.mp hb) hab)
    (le_refl _) v (Finset.mem_range.mpr hv)
  obtain ⟨a, ha, hab⟩ := key
  exact ⟨a, Finset.mem_range.mp ha, hab.symm⟩

theorem TableInvariant.two_le {R : ARingZZp} (h : TableInvariant R) : 2 ≤ R.p := by
  have := h.1.two_le
  omega

theorem TableInvariant.p1_eq {R : ARingZZp} (h : TableInvariant R) :
    R.p1 = R.p - 1 := h.2.1

/-- Every index `0 ≤ e < p` of `exp_table` holds a residue `v` of `[0,p)`,
and `log_table` maps `v` back to `e`. -/
theorem TableInvariant.exp_spec {R : ARingZZp} (h : TableInvariant R) {e : Int}
    (h0 : 0 ≤ e) (hp : e < R.p) :
    ∃ v, R.exp_table e = some v ∧ 0 ≤ v ∧ v < R.p ∧ R.log_table v = some e := by
  have h2 := h.two_le
  obtain ⟨-, -, hz, hpow, hlog⟩ := h
  have hl := hlog e h0 hp
  rcases eq_or_lt_of_le h0 with he | he
  · subst he
    rw [hz] at hl
    exact ⟨0, hz, le_refl _, by omega, by simpa using hl⟩
  · have he1 : 1 ≤ e := by omega
    rw [hpow e he1 hp] at hl
    exact ⟨_, hpow e he1 hp, Int.emod_nonneg _ (by omega),
      Int.emod_lt_of_pos _ (by omega), by simpa using hl⟩

/-- The table `exp_table` is injective on `[0,p)`. -/
theorem TableInvariant.exp_inj {R : ARingZZp} (h : TableInvariant R) {e f v : Int}
    (he0 : 0 ≤ e) (hep : e < R.p) (hf0 : 0 ≤ f) (hfp : f < R.p)
    (he : R.exp_table e = some v) (hf : R.exp_table f = some v) : e = f := by
  obtain ⟨v1, hv1, -, -, hl1⟩ := h.exp_spec he0 hep
  obtain ⟨v2, hv2, -, -, hl2⟩ := h.exp_spec hf0 hfp
  rw [he] at hv1
  rw [hf] at hv2
  obtain rfl : v = v1 := by simpa using hv1
  obtain rfl : v = v2 := by simpa using hv2
  rw [hl1] at hl2
  simpa using hl2

/-- Every residue `0 ≤ v < p` has an index in `log_table`, at which
`exp_table` holds `v`. -/
theorem TableInvariant.log_spec {R : ARingZZp} (h : TableInvariant R) {v : Int}
    (h0 : 0 ≤ v) (hp : v < R.p) :
    ∃ e, R.log_table v = some e ∧ 0 ≤ e ∧ e < R.p ∧ R.exp_table e = some v := by
  have h2 := h.two_le
  have key := range_surj_of_inj R.p.toNat
    (fun i => ((R.exp_table (i : Int)).getD 0).toNat)
    (by
      intro i hi
      obtain ⟨w, hw, hw0, hwp, -⟩ :=
        h.exp_spec (e := (i : Int)) (by omega) (by omega)
      simp only [hw, Option.getD_some]
      omega)
    (by
      intro i hi j hj hij
      obtain ⟨w, hw, hw0, hwp, -⟩ :=
        h.exp_spec (e := (i : Int)) (by omega) (by omega)
      obtain ⟨u, hu, hu0, hup, -⟩ :=
        h.exp_spec (e := (j : Int)) (by omega) (by omega)
      simp only [hw, hu, Option.getD_some] at hij
      have hwu : w = u := by omega
      subst hwu
      have := h.exp_inj (by omega) (by omega) (by omega) (by omega) hw hu
      omega)
    v.toNat (by omega)
  obtain ⟨i, hi, hiv⟩ := key
  obtain ⟨w, hw, hw0, hwp, hl⟩ :=
    h.exp_spec (e := (i : Int)) (by omega) (by omega)
  simp only [hw, Option.getD_some] at hiv
  have hwv : w = v := by omega
  subst hwv
  exact ⟨i, hl, by omega, by omega, hw⟩

/-- A nonzero index of `exp_table` holds a nonzero residue. -/
theorem TableInvariant.exp_ne_zero {R : ARingZZp} (h : TableInvariant R) {e v : Int}
    (h1 : 1 ≤ e) (hp : e < R.p) (he : R.exp_table e = some v) : v ≠ 0 := by
  have h2 := h.two_le
  rintro rfl
  have := h.exp_inj (by omega) hp (le_refl _) (by omega) he h.2.2.1
  omega

/-- The primitive root is not a multiple of `p`. -/
theorem TableInvariant.root_coprime {R : ARingZZp} (h : TableInvariant R) :
    IsCoprime R.prim_root (R.p.toNat : Int) := by
  have h2 := h.two_le
  have hcast : (R.p.toNat : Int) = R.p := Int.toNat_of_nonneg (by omega)
  have h1 := h.2.2.2.1 1 (le_refl _) (by omega)
  have hne := h.exp_ne_zero (le_refl _) (by omega) h1
  have hnd : ¬ (R.p.toNat : Int) ∣ R.prim_root := by
    rw [hcast]
    intro hd
    apply hne
    simpa using Int.emod_eq_zero_of_dvd hd
  exact ((Nat.prime_iff_prime_int.mp h.1).coprime_iff_not_dvd.mpr hnd).symm

/-- Fermat: the powers of the primitive root have period `p-1` modulo `p`. -/
theorem TableInvariant.pow_period {R : ARingZZp} (h : TableInvariant R) (n : Nat) :
    R.prim_root ^ (n + (R.p - 1).toNat) % R.p = R.prim_root ^ n % R.p := by
  have h2 := h.two_le
  have hcast : (R.p.toNat : Int) = R.p := Int.toNat_of_nonneg (by omega)
  have hf := Int.ModEq.pow_card_sub_one_eq_one h.1 h.root_coprime
  have hexp : (R.p - 1).toNat = R.p.toNat - 1 := by omega
  rw [hcast, ← hexp] at hf
  have := hf.mul_left (R.prim_root ^ n)
  rw [mul_one, ← pow_add] at this
  exact this

/-- The index `p-1` of `exp_table` holds the residue 1. -/
theorem TableInvariant.exp_p1 {R : ARingZZp} (h : TableInvariant R) :
    R.exp_table (R.p - 1) = some 1 := by
  have h2 := h.two_le
  rw [h.2.2.2.1 (R.p - 1) (by omega) (by omega)]
  have := h.pow_period 0
  rw [zero_add, pow_zero] at this
  rw [this, Int.emod_eq_of_lt (by omega) (by omega)]

/-- On nonzero operands `mult_exact` is the sum of the exponents, reduced by
`p1` when it exceeds `p1`. -/
theorem mult_exact_of_ne_zero (R : ARingZZp) {a b : Int} (ha : a ≠ 0) (hb : b ≠ 0) :
    mult_exact R a b = if a + b > R.p1 then a + b - R.p1 else a + b := by
  unfold mult_exact
  rw [if_pos ⟨ha, hb⟩]

/-- Over the unbounded integers multiplication adds exponents: on nonzero
elements `mult_exact` stays in `[1,p-1]` and `exp_table` turns it into the
product of residues. -/
theorem TableInvariant.mult_exact_spec {R : ARingZZp} (h : TableInvariant R) {e f x y : Int}
    (he1 : 1 ≤ e) (hep : e < R.p) (hf1 : 1 ≤ f) (hfp : f < R.p)
    (hx : R.exp_table e = some x) (hy : R.exp_table f = some y) :
    1 ≤ mult_exact R e f ∧ mult_exact R e f < R.p ∧
      R.exp_table (mult_exact R e f) = some (x * y % R.p) := by
  have h2 := h.two_le
  have hp1 := h.p1_eq
  have hpow := h.2.2.2.1
  rw [hpow e he1 hep] at hx
  rw [hpow f hf1 hfp] at hy
  obtain rfl : R.prim_root ^ e.toNat % R.p = x := by simpa using hx
  obtain rfl : R.prim_root ^ f.toNat % R.p = y := by simpa using hy
  have hprod : R.prim_root ^ e.toNat % R.p * (R.prim_root ^ f.toNat % R.p) % R.p
      = R.prim_root ^ (e + f).toNat % R.p := by
    rw [← Int.mul_emod, ← pow_add]
    congr 2
    omega
  rw [hprod]
  have hm : mult_exact R e f = if e + f > R.p1 then e + f - R.p1 else e + f := by
    unfold mult_exact
    rw [if_pos ⟨by omega, by omega⟩]
  rw [hm]
  split_ifs with hc
  · refine ⟨by omega, by omega, ?_⟩
    rw [hpow _ (by omega) (by omega)]
    have := h.pow_period (e + f - R.p1).toNat
    rw [← this]
    congr 3
    omega
  · exact ⟨by omega, by omega, hpow _ (by omega) (by omega)⟩

/-- The product of residues modulo `p` is 0 exactly when a factor is. -/
theorem TableInvariant.mul_emod_ne_zero {R : ARingZZp} (h : TableInvariant R) {x y : Int}
    (hx0 : 0 ≤ x) (hxp : x < R.p) (hy0 : 0 ≤ y) (hyp : y < R.p)
    (hx : x ≠ 0) (hy : y ≠ 0) : x * y % R.p ≠ 0 := by
  have h2 := h.two_le
  have hcast : (R.p.toNat : Int) = R.p := Int.toNat_of_nonneg (by omega)
  have hpr : Prime R.p := hcast ▸ Nat.prime_iff_prime_int.mp h.1
  intro hxy
  have hd : R.p ∣ x * y := Int.dvd_of_emod_eq_zero hxy
  rcases hpr.dvd_or_dvd hd with hd1 | hd1
  · have := Int.emod_eq_zero_of_dvd hd1
    rw [Int.emod_eq_of_lt hx0 hxp] at this
    exact hx this
  · have := Int.emod_eq_zero_of_dvd hd1
    rw [Int.emod_eq_of_lt hy0 hyp] at this
    exact hy this

/-- On all elements, zero included, `mult_exact` stays in `[0,p-1]` and
`exp_table` turns it into the product of residues modulo `p`. -/
theorem TableInvariant.mult_exact_decode {R : ARingZZp} (h : TableInvariant R) {e f x y : Int}
    (he0 : 0 ≤ e) (hep : e < R.p) (hf0 : 0 ≤ f) (hfp : f < R.p)
    (hx : R.exp_table e = some x) (hy : R.exp_table f = some y) :
    0 ≤ mult_exact R e f ∧ mult_exact R e f < R.p ∧
      R.exp_table (mult_exact R e f) = some (x * y % R.p) := by
  have h2 := h.two_le
  have hz := h.2.2.1
  by_cases hez : e = 0
  · subst hez
    rw [hz] at hx
    obtain rfl : 0 = x := by simpa using hx
    have hm : mult_exact R 0 f = 0 := by simp [mult_exact]
    rw [hm, zero_mul, Int.zero_emod]
    exact ⟨le_refl _, by omega, hz⟩
  by_cases hfz : f = 0
  · subst hfz
    rw [hz] at hy
    obtain rfl : 0 = y := by simpa using hy
    have hm : mult_exact R e 0 = 0 := by simp [mult_exact]
    rw [hm, mul_zero, Int.zero_emod]
    exact ⟨le_refl _, by omega, hz⟩
  obtain ⟨m1, m2, m3⟩ :=
    h.mult_exact_spec (by omega) hep (by omega) hfp hx hy
  exact ⟨by omega, m2, m3⟩

/-- Over the unbounded integers addition goes through the residues:
`add_exact` reads both tables in bounds, returns an element of `[0,p-1]`,
and that element decodes to the sum of the residues modulo `p`. -/
theorem TableInvariant.add_exact_spec {R : ARingZZp} (h : TableInvariant R) {e f x y : Int}
    (hx : R.exp_table e = some x) (hx0 : 0 ≤ x) (hxp : x < R.p)
    (hy : R.exp_table f = some y) (hy0 : 0 ≤ y) (hyp : y < R.p) :
    ∃ r, add_exact R e f = some r ∧ 0 ≤ r ∧ r < R.p ∧
      R.exp_table r = some ((x + y) % R.p) := by
  have hn : (if x + y ≥ R.p then x + y - R.p else x + y) = (x + y) % R.p := by
    split_ifs with hc
    · rw [Int.emod_eq_sub_self_emod, Int.emod_eq_of_lt (by omega) (by omega)]
    · rw [Int.emod_eq_of_lt (by omega) (by omega)]
  obtain ⟨r, hr, hr0, hrp, hre⟩ :=
    h.log_spec (v := (x + y) % R.p) (Int.emod_nonneg _ (by omega))
      (Int.emod_lt_of_pos _ (by omega))
  refine ⟨r, ?_, hr0, hrp, hre⟩
  simp only [add_exact, hx, hy, Option.bind_eq_bind, Option.some_bind, hn, hr]

/-- Over the unbounded integers subtraction goes through the residues:
`subtract_exact` reads both tables in bounds, returns an element of
`[0,p-1]`, and that element decodes to the difference of the residues
modulo `p`. -/
theorem TableInvariant.subtract_exact_spec {R : ARingZZp} (h : TableInvariant R) {e f x y : Int}
    (hx : R.exp_table e = some x) (hx0 : 0 ≤ x) (hxp : x < R.p)
    (hy : R.exp_table f = some y) (hy0 : 0 ≤ y) (hyp : y < R.p) :
    ∃ r, subtract_exact R e f = some r ∧ 0 ≤ r ∧ r < R.p ∧
      R.exp_table r = some ((x - y) % R.p) := by
  have hn : (if x - y < 0 then x - y + R.p else x - y) = (x - y) % R.p := by
    split_ifs with hc
    · rw [← Int.add_emod_self, Int.emod_eq_of_lt (by omega) (by omega)]
    · rw [Int.emod_eq_of_lt (by omega) (by omega)]
  obtain ⟨r, hr, hr0, hrp, hre⟩ :=
    h.log_spec (v := (x - y) % R.p) (Int.emod_nonneg _ (by omega))
      (Int.emod_lt_of_pos _ (by omega))
  refine ⟨r, ?_, hr0, hrp, hre⟩
  simp only [subtract_exact, hx, hy, Option.bind_eq_bind, Option.some_bind, hn, hr]

/-- C's truncating remainder followed by the `+ p` correction of a negative
value is the floor remainder. -/
theorem cmod_correction (n p : Int) (hp : 0 < p) :
    (if cmod n p < 0 then cmod n p + p else cmod n p) = n % p := by
  unfold cmod
  rcases le_or_lt 0 n with hn | hn
  · rw [Int.tmod_eq_emod hn (le_of_lt hp), if_neg (not_lt.mpr (Int.emod_nonneg _ (by omega)))]
  · have hr0 : 0 ≤ (-n) % p := Int.emod_nonneg _ (by omega)
    have hrp : (-n) % p < p := Int.emod_lt_of_pos _ hp
    have hdiv : p * ((-n) / p) + (-n) % p = -n := Int.ediv_add_emod (-n) p
    have hq : n.tdiv p = -((-n) / p) := by
      have h1 : n.tdiv p = (-(-n)).tdiv p := by rw [neg_neg]
      rw [h1, Int.neg_tdiv, Int.tdiv_eq_ediv (by omega) (le_of_lt hp)]
    have ht : Int.tmod n p = -((-n) % p) := by
      rw [Int.tmod_def, hq]
      linear_combination hdiv
    rw [ht]
    by_cases hz : (-n) % p = 0
    · have key : n % p = 0 % p := by
        rw [Int.emod_eq_emod_iff_emod_sub_eq_zero]
        have hn' : n - 0 = p * (-((-n) / p)) := by
          rw [hz] at hdiv
          linear_combination hdiv
        rw [hn', Int.mul_emod_right]
      rw [hz, key, if_neg (by omega)]
      simp
    · have key : n % p = (p - (-n) % p) % p := by
        rw [Int.emod_eq_emod_iff_emod_sub_eq_zero]
        have hn' : n - (p - (-n) % p) = p * (-((-n) / p) - 1) := by
          linear_combination hdiv
        rw [hn', Int.mul_emod_right]
      have hlt : (p - (-n) % p) % p = p - (-n) % p :=
        Int.emod_eq_of_lt (by omega) (by omega)
      rw [if_pos (by omega), key, hlt]
      ring

/-- The integer path: `set_from_int` reads `log_table` at the floor
remainder of `n` by `p`, in bounds, and the element decodes to it. -/
theorem TableInvariant.set_from_int_spec {R : ARingZZp} (h : TableInvariant R) (n : Int) :
    ∃ r, set_from_int R n = some r ∧ 0 ≤ r ∧ r < R.p ∧
      R.exp_table r = some (n % R.p) := by
  have h2 := h.two_le
  obtain ⟨r, hr, hr0, hrp, hre⟩ :=
    h.log_spec (v := n % R.p) (Int.emod_nonneg _ (by omega))
      (Int.emod_lt_of_pos _ (by omega))
  refine ⟨r, ?_, hr0, hrp, hre⟩
  simp only [set_from_int, cmod_correction n R.p (by omega), hr]

/-- Once both table reads succeed, `compare_elems` is the three-way
comparison of the two residues read. -/
theorem compare_elems_of_reads (R : ARingZZp) {f g a b : Int}
    (ha : R.exp_table f = some a) (hb : R.exp_table g = some b) :
    compare_elems R f g = some (if a < b then -1 else if a > b then 1 else 0) := by
  simp only [compare_elems, ha, hb, Option.bind_eq_bind, Option.some_bind]
  split_ifs <;> rfl

/-! ## Negation, the exact reference, encoding and comparison -/

/-- C1, evaluated on the code: in the field of 5 elements with primitive
root 2 the element 1 stands for the residue 2; `negate` returns `5 - 1 = 4`,
which stands for the residue 1 and not for `5 - 2 = 3`, and `add` of the
element and its `negate` is the element 3, which stands for the residue 3
and not 0. So `negate` is not the additive inverse under the table
invariant. -/
theorem negate_not_additive_inverse :
    TableInvariant zz5 ∧ get_int zz5 1 = some 2 ∧ negate zz5 1 = 4 ∧
      get_int zz5 (negate zz5 1) = some 1 ∧
      add zz5 1 (negate zz5 1) = some 3 ∧ get_int zz5 3 = some 3 ∧
      ¬ (∀ R : ARingZZp, TableInvariant R → ∀ e : Int, 0 ≤ e → e < R.p →
          ∃ r, add R e (negate R e) = some r ∧ get_int R r = some 0) := by
  refine ⟨zz5_inv, by decide, by decide, by decide, by decide, by decide, ?_⟩
  intro hall
  obtain ⟨r, hr, hr0⟩ := hall zz5 zz5_inv 1 (by decide) (by decide)
  have h3 : add zz5 1 (negate zz5 1) = some 3 := by decide
  rw [h3] at hr
  obtain rfl : 3 = r := by simpa using hr
  revert hr0
  decide

/-- Over the unbounded integers, under the table invariant, for elements
`e`, `f` of `[0,p-1]`, the residue of `mult_exact e f` is the product of
the residues modulo `p`; `mult_exact` is 0 when an operand is 0, and
otherwise it is the unique `r` of `[1,p-1]` congruent to `e + f` modulo
`p - 1`. -/
theorem mult_exact_is_modular_multiplication (R : ARingZZp) (h : TableInvariant R)
    (e f : Int) (he0 : 0 ≤ e) (hep : e < R.p) (hf0 : 0 ≤ f) (hfp : f < R.p) :
    (∃ x y, get_int R e = some x ∧ get_int R f = some y ∧
      get_int R (mult_exact R e f) = some (x * y % R.p)) ∧
    (e = 0 ∨ f = 0 → mult_exact R e f = 0) ∧
    (e ≠ 0 → f ≠ 0 →
      1 ≤ mult_exact R e f ∧ mult_exact R e f ≤ R.p - 1 ∧
      mult_exact R e f ≡ e + f [ZMOD R.p - 1] ∧
      ∀ r : Int, 1 ≤ r → r ≤ R.p - 1 → r ≡ e + f [ZMOD R.p - 1] →
        r = mult_exact R e f) := by
  have h2 := h.two_le
  have hp1 := h.p1_eq
  obtain ⟨x, hx, -, -, -⟩ := h.exp_spec he0 hep
  obtain ⟨y, hy, -, -, -⟩ := h.exp_spec hf0 hfp
  refine ⟨⟨x, y, hx, hy, (h.mult_exact_decode he0 hep hf0 hfp hx hy).2.2⟩, ?_, ?_⟩
  · rintro (rfl | rfl) <;> simp [mult_exact]
  · intro hez hfz
    have hm : mult_exact R e f = if e + f > R.p1 then e + f - R.p1 else e + f := by
      unfold mult_exact
      rw [if_pos ⟨hez, hfz⟩]
    have hcong : mult_exact R e f ≡ e + f [ZMOD R.p - 1] := by
      rw [hm]
      split_ifs with hc
      · rw [hp1]
        exact (Int.modEq_iff_dvd.mpr ⟨1, by ring⟩)
      · exact Int.ModEq.refl _
    have hlo : 1 ≤ mult_exact R e f := by rw [hm]; split_ifs <;> omega
    have hhi : mult_exact R e f ≤ R.p - 1 := by rw [hm]; split_ifs <;> omega
    refine ⟨hlo, hhi, hcong, ?_⟩
    intro r hr1 hrp hr
    have hrm : r ≡ mult_exact R e f [ZMOD R.p - 1] := hr.trans hcong.symm
    have hd : R.p - 1 ∣ mult_exact R e f - r := Int.modEq_iff_dvd.mp hrm
    obtain ⟨k, hk⟩ := hd
    have hk1 : k < 1 := by
      by_contra hcon
      have : (R.p - 1) * 1 ≤ (R.p - 1) * k :=
        Int.mul_le_mul_of_nonneg_left (by omega) (by omega)
      omega
    have hk2 : -1 < k := by
      by_contra hcon
      have : (R.p - 1) * k ≤ (R.p - 1) * (-1) :=
        Int.mul_le_mul_of_nonneg_left (by omega) (by omega)
      omega
    have hk0 : k = 0 := by omega
    rw [hk0, mul_zero] at hk
    omega

/-- Over the unbounded integers, under the table invariant, for elements
`a`, `b`, `c` of `[0,p-1]`, zero included, `mult_exact a (add_exact b c)`
and `add_exact (mult_exact a b) (mult_exact a c)` are the same element. -/
theorem mult_exact_distributes_over_add_exact (R : ARingZZp) (h : TableInvariant R)
    (a b c : Int) (ha0 : 0 ≤ a) (hap : a < R.p) (hb0 : 0 ≤ b) (hbp : b < R.p)
    (hc0 : 0 ≤ c) (hcp : c < R.p) :
    ∃ s, add_exact R b c = some s ∧
      add_exact R (mult_exact R a b) (mult_exact R a c) = some (mult_exact R a s) := by
  have h2 := h.two_le
  obtain ⟨x, hx, hx0, hxp, -⟩ := h.exp_spec ha0 hap
  obtain ⟨y, hy, hy0, hyp, -⟩ := h.exp_spec hb0 hbp
  obtain ⟨z, hz, hz0, hzp, -⟩ := h.exp_spec hc0 hcp
  obtain ⟨s, hs, hs0, hsp, hse⟩ := h.add_exact_spec hy hy0 hyp hz hz0 hzp
  obtain ⟨l0, lp, le⟩ := h.mult_exact_decode ha0 hap hs0 hsp hx hse
  obtain ⟨u0, up, ue⟩ := h.mult_exact_decode ha0 hap hb0 hbp hx hy
  obtain ⟨v0, vp, ve⟩ := h.mult_exact_decode ha0 hap hc0 hcp hx hz
  obtain ⟨w, hw, hw0, hwp, hwe⟩ :=
    h.add_exact_spec ue (Int.emod_nonneg _ (by omega)) (Int.emod_lt_of_pos _ (by omega))
      ve (Int.emod_nonneg _ (by omega)) (Int.emod_lt_of_pos _ (by omega))
  have hval : (x * y % R.p + x * z % R.p) % R.p = x * ((y + z) % R.p) % R.p := by
    rw [← Int.add_emod, ← mul_add]
    exact ((Int.mod_modEq (y + z) R.p).mul_left x).symm
  rw [hval] at hwe
  have hws : w = mult_exact R a s := h.exp_inj hw0 hwp l0 lp hwe le
  exact ⟨s, hs, by rw [hw, hws]⟩

/-- Over the unbounded integers, under the table invariant, for a nonzero
element `e` of `[1,p-1]`, `invert e` is in `[1,p-1]` and
`mult_exact e (invert e)` is `p - 1`, the element whose residue is 1. -/
theorem invert_is_inverse_for_mult_exact (R : ARingZZp) (h : TableInvariant R)
    (e : Int) (he1 : 1 ≤ e) (hep : e < R.p) :
    1 ≤ invert R e ∧ invert R e ≤ R.p - 1 ∧
      mult_exact R e (invert R e) = R.p - 1 ∧ get_int R (R.p - 1) = some 1 ∧
      get_int R (mult_exact R e (invert R e)) = some 1 := by
  have hp1 := h.p1_eq
  have hone := h.exp_p1
  have hi : invert R e = if R.p1 - e = 0 then R.p1 else R.p1 - e := rfl
  have hlo : 1 ≤ invert R e := by rw [hi]; split_ifs <;> omega
  have hhi : invert R e ≤ R.p - 1 := by rw [hi]; split_ifs <;> omega
  have hm : mult_exact R e (invert R e) = R.p - 1 := by
    rw [mult_exact_of_ne_zero R (by omega) (by omega), hi]
    split_ifs <;> omega
  exact ⟨hlo, hhi, hm, hone, by rw [hm]; exact hone⟩

/-- Over the unbounded integers, when `p1` is `p - 1`, for nonzero
elements `e`, `f` of `[1,p-1]`, `divide e f` is in `[1,p-1]` and
`mult_exact (divide e f) f` is `e`. -/
theorem divide_inverts_mult_exact (R : ARingZZp) (hp1 : R.p1 = R.p - 1) (e f : Int)
    (he1 : 1 ≤ e) (hep : e < R.p) (hf1 : 1 ≤ f) (hfp : f < R.p) :
    1 ≤ divide R e f ∧ divide R e f ≤ R.p - 1 ∧
      mult_exact R (divide R e f) f = e := by
  have hd : divide R e f = if e - f ≤ 0 then e - f + R.p1 else e - f := by
    unfold divide
    rw [if_pos ⟨by omega, by omega⟩]
  have hlo : 1 ≤ divide R e f := by rw [hd]; split_ifs <;> omega
  have hhi : divide R e f ≤ R.p - 1 := by rw [hd]; split_ifs <;> omega
  refine ⟨hlo, hhi, ?_⟩
  rw [mult_exact_of_ne_zero R (by omega) (by omega), hd]
  split_ifs <;> omega

/-- Over the unbounded integers, under the table invariant, for elements
`e`, `f` of `[0,p-1]`, `subtract_exact` returns an element of `[0,p-1]`
whose residue is the difference of the residues modulo `p`, a value of
`[0,p-1]`; and `add_exact` of it and `f` gives `e`. -/
theorem subtract_exact_is_modular_subtraction (R : ARingZZp) (h : TableInvariant R)
    (e f : Int) (he0 : 0 ≤ e) (hep : e < R.p) (hf0 : 0 ≤ f) (hfp : f < R.p) :
    ∃ x y r, get_int R e = some x ∧ get_int R f = some y ∧
      subtract_exact R e f = some r ∧ 0 ≤ r ∧ r < R.p ∧
      get_int R r = some ((x - y) % R.p) ∧
      0 ≤ (x - y) % R.p ∧ (x - y) % R.p < R.p ∧
      add_exact R r f = some e := by
  have h2 := h.two_le
  obtain ⟨x, hx, hx0, hxp, -⟩ := h.exp_spec he0 hep
  obtain ⟨y, hy, hy0, hyp, -⟩ := h.exp_spec hf0 hfp
  obtain ⟨r, hr, hr0, hrp, hre⟩ := h.subtract_exact_spec hx hx0 hxp hy hy0 hyp
  have hd0 : 0 ≤ (x - y) % R.p := Int.emod_nonneg _ (by omega)
  have hdp : (x - y) % R.p < R.p := Int.emod_lt_of_pos _ (by omega)
  obtain ⟨w, hw, hw0, hwp, hwe⟩ := h.add_exact_spec hre hd0 hdp hy hy0 hyp
  have hval : ((x - y) % R.p + y) % R.p = x := by
    rw [Int.emod_add_cancel_right y |>.mpr (Int.emod_emod_of_dvd (x - y) (dvd_refl R.p))]
    rw [sub_add_cancel, Int.emod_eq_of_lt hx0 hxp]
  rw [hval] at hwe
  have hwe' : w = e := h.exp_inj hw0 hwp he0 hep hwe hx
  exact ⟨x, y, r, hx, hy, hr, hr0, hrp, hre, hd0, hdp, by rw [hw, hwe']⟩

/-- C8: under the table invariant, for every integer `n`, negative ones
included, `set_from_int n` is an element of `[0,p-1]` whose residue is the
floor remainder of `n` by `p`, the unique `v` of `[0,p-1]` congruent to `n`
modulo `p`. -/
theorem set_from_int_is_floor_reduction (R : ARingZZp) (h : TableInvariant R)
    (n : Int) :
    ∃ r, set_from_int R n = some r ∧ 0 ≤ r ∧ r < R.p ∧
      get_int R r = some (Int.fmod n R.p) ∧
      0 ≤ Int.fmod n R.p ∧ Int.fmod n R.p < R.p ∧
      Int.fmod n R.p ≡ n [ZMOD R.p] ∧
      ∀ v : Int, 0 ≤ v → v < R.p → v ≡ n [ZMOD R.p] → v = Int.fmod n R.p := by
  have h2 := h.two_le
  have hfm : Int.fmod n R.p = n % R.p := Int.fmod_eq_emod n (by omega)
  obtain ⟨r, hr, hr0, hrp, hre⟩ := h.set_from_int_spec n
  rw [hfm]
  refine ⟨r, hr, hr0, hrp, hre, Int.emod_nonneg _ (by omega),
    Int.emod_lt_of_pos _ (by omega), Int.mod_modEq n R.p, ?_⟩
  intro v hv0 hvp hv
  have : v % R.p = n % R.p := hv
  rw [Int.emod_eq_of_lt hv0 hvp] at this
  exact this

/-- C8 at `p = 5`, primitive root 2: `fromInteger(-1)` is the element 2,
which decodes to the residue 4, although C's `-1 % 5` is `-1`. -/
theorem set_from_int_is_floor_reduction_witness :
    TableInvariant zz5 ∧
    (∃ r, set_from_int zz5 (-1) = some r ∧ 0 ≤ r ∧ r < zz5.p ∧
      get_int zz5 r = some (Int.fmod (-1) zz5.p) ∧
      0 ≤ Int.fmod (-1) zz5.p ∧ Int.fmod (-1) zz5.p < zz5.p ∧
      Int.fmod (-1) zz5.p ≡ -1 [ZMOD zz5.p] ∧
      ∀ v : Int, 0 ≤ v → v < zz5.p → v ≡ -1 [ZMOD zz5.p] →
        v = Int.fmod (-1) zz5.p) ∧
    cmod (-1) 5 = -1 ∧ set_from_int zz5 (-1) = some 2 ∧
    get_int zz5 2 = some 4 :=
  ⟨zz5_inv, set_from_int_is_floor_reduction zz5 zz5_inv (-1),
    by decide, by decide, by decide⟩

/-- C9: under the table invariant, `set_from_int` and `get_int` are inverse
to each other on `[0,p-1]`: a residue `v` encoded and decoded is `v`, and
an element `e` decoded and encoded is `e`. -/
theorem set_from_int_get_int_inverse (R : ARingZZp) (h : TableInvariant R)
    (v e : Int) (hv0 : 0 ≤ v) (hvp : v < R.p) (he0 : 0 ≤ e) (hep : e < R.p) :
    (∃ r, set_from_int R v = some r ∧ get_int R r = some v) ∧
    (∃ x, get_int R e = some x ∧ set_from_int R x = some e) := by
  obtain ⟨r, hr, hr0, hrp, hre⟩ := h.set_from_int_spec v
  rw [Int.emod_eq_of_lt hv0 hvp] at hre
  obtain ⟨x, hx, hx0, hxp, -⟩ := h.exp_spec he0 hep
  obtain ⟨s, hs, hs0, hsp, hse⟩ := h.set_from_int_spec x
  rw [Int.emod_eq_of_lt hx0 hxp] at hse
  have hse' : s = e := h.exp_inj hs0 hsp he0 hep hse hx
  exact ⟨⟨r, hr, hre⟩, ⟨x, hx, by rw [hs, hse']⟩⟩

/-- C9 at `p = 5`, primitive root 2, on the residue 3 and on the element 2
(the residue 4). -/
theorem set_from_int_get_int_inverse_witness :
    TableInvariant zz5 ∧
    ((∃ r, set_from_int zz5 3 = some r ∧ get_int zz5 r = some 3) ∧
      (∃ x, get_int zz5 2 = some x ∧ set_from_int zz5 x = some 2)) ∧
    set_from_int zz5 3 = some 3 ∧ get_int zz5 2 = some 4 ∧
    set_from_int zz5 4 = some 2 :=
  ⟨zz5_inv,
    set_from_int_get_int_inverse zz5 zz5_inv 3 2 (by decide) (by decide)
      (by decide) (by decide),
    by decide, by decide, by decide⟩

/-- C10: under the table invariant, for elements `e`, `f` of `[0,p-1]`,
`compare_elems e f` is -1 iff the residue of `e` is below that of `f`, 1
iff it is above, 0 iff `e = f`, and nothing else. On the encodings of two
residues `u`, `v` of `[0,p-1]` it is the comparison of `u` with `v`, so it
is the natural order of the residues, the same in a second ring `S` of the
same `p` whatever its primitive root. -/
theorem compare_elems_is_residue_order (R S : ARingZZp) (h : TableInvariant R)
    (hS : TableInvariant S) (hp : S.p = R.p) (e f u v : Int)
    (he0 : 0 ≤ e) (hep : e < R.p) (hf0 : 0 ≤ f) (hfp : f < R.p)
    (hu0 : 0 ≤ u) (hup : u < R.p) (hv0 : 0 ≤ v) (hvp : v < R.p) :
    (∃ x y c, get_int R e = some x ∧ get_int R f = some y ∧
      compare_elems R e f = some c ∧
      (c = -1 ↔ x < y) ∧ (c = 1 ↔ x > y) ∧ (c = 0 ↔ e = f) ∧
      (c = -1 ∨ c = 0 ∨ c = 1)) ∧
    (∃ a b a' b', set_from_int R u = some a ∧ set_from_int R v = some b ∧
      set_from_int S u = some a' ∧ set_from_int S v = some b' ∧
      compare_elems R a b = some (if u < v then -1 else if u > v then 1 else 0) ∧
      compare_elems S a' b' = compare_elems R a b) := by
  constructor
  · obtain ⟨x, hx, hx0, hxp, -⟩ := h.exp_spec he0 hep
    obtain ⟨y, hy, hy0, hyp, -⟩ := h.exp_spec hf0 hfp
    refine ⟨x, y, _, hx, hy, compare_elems_of_reads R hx hy, ?_, ?_, ?_, ?_⟩
    · by_cases hlt : x < y
      · simp [hlt]
      · by_cases hgt : x > y
        · simp [hlt, hgt]
        · simp [hlt, hgt]
    · by_cases hlt : x < y
      · simp only [hlt, if_true]
        constructor <;> intro <;> omega
      · by_cases hgt : x > y
        · simp [hlt, hgt]
        · simp [hlt, hgt]
    · have hiff : e = f ↔ x = y := by
        constructor
        · rintro rfl
          rw [hx] at hy
          simpa using hy
        · rintro rfl
          exact h.exp_inj he0 hep hf0 hfp hx hy
      rw [hiff]
      by_cases hlt : x < y
      · simp only [hlt, if_true]
        constructor <;> intro <;> omega
      · by_cases hgt : x > y
        · simp only [hlt, hgt, if_true, if_false]
          constructor <;> intro <;> omega
        · simp only [hlt, hgt, if_false]
          exact ⟨fun _ => by omega, fun _ => trivial⟩
    · split_ifs <;> omega
  · obtain ⟨a, ha, -, -, hae⟩ := h.set_from_int_spec u
    obtain ⟨b, hb, -, -, hbe⟩ := h.set_from_int_spec v
    obtain ⟨a', ha', -, -, hae'⟩ := hS.set_from_int_spec u
    obtain ⟨b', hb', -, -, hbe'⟩ := hS.set_from_int_spec v
    rw [Int.emod_eq_of_lt hu0 hup] at hae
    rw [Int.emod_eq_of_lt hv0 hvp] at hbe
    rw [hp, Int.emod_eq_of_lt hu0 hup] at hae'
    rw [hp, Int.emod_eq_of_lt hv0 hvp] at hbe'
    exact ⟨a, b, a', b', ha, hb, ha', hb', compare_elems_of_reads R hae hbe,
      by rw [compare_elems_of_reads R hae hbe, compare_elems_of_reads S hae' hbe']⟩

/-- C10 at `p = 5`: with primitive root 2 the elements 1 and 4 stand for
the residues 2 and 1, so `compare_elems 1 4` is 1 although `1 < 4`; the
residues 1 and 2 are encoded as 4, 1 with primitive root 2 and as 4, 3
with primitive root 3, and compare as -1 in both rings. -/
theorem compare_elems_is_residue_order_witness :
    TableInvariant zz5 ∧ TableInvariant zz5b ∧
    ((∃ x y c, get_int zz5 1 = some x ∧ get_int zz5 4 = some y ∧
      compare_elems zz5 1 4 = some c ∧
      (c = -1 ↔ x < y) ∧ (c = 1 ↔ x > y) ∧ (c = 0 ↔ (1 : Int) = 4) ∧
      (c = -1 ∨ c = 0 ∨ c = 1)) ∧
    (∃ a b a' b', set_from_int zz5 1 = some a ∧ set_from_int zz5 2 = some b ∧
      set_from_int zz5b 1 = some a' ∧ set_from_int zz5b 2 = some b' ∧
      compare_elems zz5 a b
        = some (if (1 : Int) < 2 then -1 else if (1 : Int) > 2 then 1 else 0) ∧
      compare_elems zz5b a' b' = compare_elems zz5 a b)) ∧
    compare_elems zz5 1 4 = some 1 ∧ compare_elems zz5 4 1 = some (-1) ∧
    compare_elems zz5b 4 3 = some (-1) :=
  ⟨zz5_inv, zz5b_inv,
    compare_elems_is_residue_order zz5 zz5b zz5_inv zz5b_inv (by decide) 1 4 1 2
      (by decide) (by decide) (by decide) (by decide) (by decide) (by decide)
      (by decide) (by decide),
    by decide, by decide, by decide⟩

/-! ## Powers -/

/-- On a nonzero element `power_exact` is the truncated remainder of
`a * n` by `p1`, moved up by `p1` when it is not positive. -/
theorem power_exact_of_ne_zero (R : ARingZZp) {a : Int} (n : Int) (ha : a ≠ 0) :
    power_exact R a n
      = if cmod (a * n) R.p1 ≤ 0 then cmod (a * n) R.p1 + R.p1
        else cmod (a * n) R.p1 := by
  unfold power_exact
  rw [if_pos ha]

/-- Adding a multiple of `p-1` to the exponent does not change a power of
the primitive root modulo `p`. -/
theorem TableInvariant.pow_add_mul_period {R : ARingZZp} (h : TableInvariant R)
    (r q : Nat) :
    R.prim_root ^ (r + q * (R.p - 1).toNat) % R.p = R.prim_root ^ r % R.p := by
  induction q with
  | zero => simp
  | succ q ih =>
    have hq : r + (q + 1) * (R.p - 1).toNat
        = (r + q * (R.p - 1).toNat) + (R.p - 1).toNat := by ring
    rw [hq, h.pow_period, ih]

/-- Over the unbounded integers, for an exponent `n ≥ 0`, `power_exact` of
a nonzero element stays in `[1,p-1]` and `exp_table` turns it into the
`n`-th power of the residue modulo `p`. -/
theorem TableInvariant.power_exact_spec {R : ARingZZp} (h : TableInvariant R) {e x : Int}
    (n : Int) (he1 : 1 ≤ e) (hep : e < R.p) (hn : 0 ≤ n)
    (hx : R.exp_table e = some x) :
    1 ≤ power_exact R e n ∧ power_exact R e n < R.p ∧
      R.exp_table (power_exact R e n) = some (x ^ n.toNat % R.p) := by
  have h2 := h.two_le
  have hp1 := h.p1_eq
  have hpow := h.2.2.2.1
  rw [hpow e he1 hep] at hx
  obtain rfl : R.prim_root ^ e.toNat % R.p = x := by simpa using hx
  have hK0 : 0 ≤ e * n := Int.mul_nonneg (by omega) hn
  have hP0 : 0 < R.p1 := by omega
  have hc : cmod (e * n) R.p1 = (e * n) % R.p1 := Int.tmod_eq_emod hK0 (le_of_lt hP0)
  have hr0 : 0 ≤ (e * n) % R.p1 := Int.emod_nonneg _ (by omega)
  have hrp : (e * n) % R.p1 < R.p1 := Int.emod_lt_of_pos _ hP0
  have hq0 : 0 ≤ (e * n) / R.p1 := Int.ediv_nonneg hK0 (le_of_lt hP0)
  have hdiv : R.p1 * ((e * n) / R.p1) + (e * n) % R.p1 = e * n :=
    Int.ediv_add_emod (e * n) R.p1
  -- the residue of `e` to the `n` is the primitive root to the `e * n`
  have hxn : (R.prim_root ^ e.toNat % R.p) ^ n.toNat % R.p
      = R.prim_root ^ (e * n).toNat % R.p := by
    have h1 : (R.prim_root ^ e.toNat % R.p) ^ n.toNat
        ≡ (R.prim_root ^ e.toNat) ^ n.toNat [ZMOD R.p] :=
      (Int.mod_modEq _ _).pow _
    rw [← pow_mul] at h1
    have h2 : e.toNat * n.toNat = (e * n).toNat := by
      have : ((e.toNat * n.toNat : Nat) : Int) = e * n := by
        rw [Nat.cast_mul, Int.toNat_of_nonneg (by omega), Int.toNat_of_nonneg hn]
      omega
    rw [h2] at h1
    exact h1
  -- split the exponent as remainder plus a multiple of `p-1`
  have hsplit : (e * n).toNat
      = ((e * n) % R.p1).toNat + ((e * n) / R.p1).toNat * (R.p - 1).toNat := by
    have : (((((e * n) % R.p1).toNat
        + ((e * n) / R.p1).toNat * (R.p - 1).toNat : Nat)) : Int) = e * n := by
      rw [Nat.cast_add, Nat.cast_mul, Int.toNat_of_nonneg hr0,
        Int.toNat_of_nonneg hq0, Int.toNat_of_nonneg (by omega), ← hp1]
      linear_combination hdiv
    omega
  have hred : R.prim_root ^ (e * n).toNat % R.p
      = R.prim_root ^ ((e * n) % R.p1).toNat % R.p := by
    rw [hsplit]
    exact h.pow_add_mul_period _ _
  rw [hxn, hred, power_exact_of_ne_zero R n (by omega), hc]
  split_ifs with hz
  · have hz0 : (e * n) % R.p1 = 0 := by omega
    rw [hz0, zero_add, hp1]
    refine ⟨by omega, by omega, ?_⟩
    rw [h.exp_p1]
    simp only [Int.toNat_zero, pow_zero]
    rw [Int.emod_eq_of_lt (by omega) (by omega)]
  · exact ⟨by omega, by omega, hpow _ (by omega) (by omega)⟩

/-- Over the unbounded integers, under the table invariant, for a nonzero
element `e` of `[1,p-1]` and an exponent `n ≥ 0`, the residue of
`power_exact e n` is the `n`-th power of the residue of `e` modulo `p`;
`power_exact e (p-1)` and `power_exact e 0` are both `p - 1`, the element
whose residue is 1. -/
theorem power_exact_is_modular_power (R : ARingZZp) (h : TableInvariant R) (e n : Int)
    (he1 : 1 ≤ e) (hep : e < R.p) (hn : 0 ≤ n) :
    ∃ x, get_int R e = some x ∧
      get_int R (power_exact R e n) = some (x ^ n.toNat % R.p) ∧
      power_exact R e (R.p - 1) = R.p - 1 ∧ power_exact R e 0 = R.p - 1 ∧
      get_int R (R.p - 1) = some 1 := by
  have h2 := h.two_le
  have hp1 := h.p1_eq
  obtain ⟨x, hx, -, -, -⟩ := h.exp_spec (by omega : 0 ≤ e) hep
  refine ⟨x, hx, (h.power_exact_spec n he1 hep hn hx).2.2, ?_, ?_, h.exp_p1⟩
  · rw [power_exact_of_ne_zero R _ (by omega), ← hp1]
    have : cmod (e * R.p1) R.p1 = 0 := by
      unfold cmod
      exact Int.mul_tmod_left e R.p1
    rw [this]
    simp
  · rw [power_exact_of_ne_zero R _ (by omega), ← hp1]
    have : cmod (e * 0) R.p1 = 0 := by
      unfold cmod
      rw [mul_zero]
      exact Int.zero_tmod _
    rw [this]
    simp

/-! ## Fused subtraction, division and inversion at zero -/

/-- On nonzero operands `divide` is the difference of the exponents, moved
up by `p1` when it is not positive. -/
theorem divide_of_ne_zero (R : ARingZZp) {a b : Int} (ha : a ≠ 0) (hb : b ≠ 0) :
    divide R a b = if a - b ≤ 0 then a - b + R.p1 else a - b := by
  unfold divide
  rw [if_pos ⟨ha, hb⟩]

/-- On nonzero elements of `[1,p-1]`, `divide` stays in `[1,p-1]` and
multiplying back by the divisor gives the dividend. -/
theorem divide_spec (R : ARingZZp) (hp1 : R.p1 = R.p - 1) {e f : Int}
    (he1 : 1 ≤ e) (hep : e < R.p) (hf1 : 1 ≤ f) (hfp : f < R.p) :
    1 ≤ divide R e f ∧ divide R e f < R.p ∧ mult_exact R (divide R e f) f = e := by
  have hd := divide_of_ne_zero R (a := e) (b := f) (by omega) (by omega)
  have hlo : 1 ≤ divide R e f := by rw [hd]; split_ifs <;> omega
  have hhi : divide R e f < R.p := by rw [hd]; split_ifs <;> omega
  refine ⟨hlo, hhi, ?_⟩
  rw [mult_exact_of_ne_zero R (by omega) (by omega), hd]
  split_ifs <;> omega

/-- The value `invert` returns at 0 is `p1`. -/
theorem invert_zero (R : ARingZZp) : invert R 0 = R.p1 := by
  unfold invert
  simp

/-- C14: when `p1` is `p - 1`, for elements `e`, `f` of `[0,p-1]`, `divide`
is the zero element when `e` or `f` is zero (it is a total function: no
error for a zero divisor), and is not the zero element when both are
nonzero. -/
theorem divide_zero_cases (R : ARingZZp) (hp1 : R.p1 = R.p - 1) (e f : Int)
    (he0 : 0 ≤ e) (hep : e < R.p) (hf0 : 0 ≤ f) (hfp : f < R.p) :
    (e = 0 ∨ f = 0 → divide R e f = 0) ∧
    (e ≠ 0 → f ≠ 0 → divide R e f ≠ 0) := by
  constructor
  · rintro (rfl | rfl) <;> simp [divide]
  · intro hez hfz
    have := (divide_spec R hp1 (by omega : 1 ≤ e) hep (by omega : 1 ≤ f) hfp).1
    omega

/-- C14 at `p = 5`, primitive root 2: `divide(fromInteger(0),
fromInteger(3))` decodes to the residue 0, and so does a division by the
zero element. -/
theorem divide_zero_cases_witness :
    zz5.p1 = zz5.p - 1 ∧
    (((0 : Int) = 0 ∨ (3 : Int) = 0 → divide zz5 0 3 = 0) ∧
      ((0 : Int) ≠ 0 → (3 : Int) ≠ 0 → divide zz5 0 3 ≠ 0)) ∧
    ((set_from_int zz5 0).bind fun a => (set_from_int zz5 3).bind fun b =>
      get_int zz5 (divide zz5 a b)) = some 0 ∧
    divide zz5 3 0 = 0 ∧ divide zz5 3 1 = 2 :=
  ⟨by decide,
    divide_zero_cases zz5 (by decide) 0 3 (by decide) (by decide) (by decide)
      (by decide),
    by decide, by decide, by decide⟩

/-- C15: under the table invariant, `invert` of the zero element is `p1`,
that is `p - 1`, the element whose residue is 1. -/
theorem invert_zero_is_one (R : ARingZZp) (h : TableInvariant R) :
    invert R 0 = R.p1 ∧ invert R 0 = R.p - 1 ∧
      get_int R (invert R 0) = some 1 := by
  have hp1 := h.p1_eq
  refine ⟨invert_zero R, by rw [invert_zero, hp1], ?_⟩
  rw [invert_zero, hp1]
  exact h.exp_p1

/-- C15 at `p = 5`, primitive root 2: `invert 0` is the element 4, which
decodes to the residue 1. -/
theorem invert_zero_is_one_witness :
    TableInvariant zz5 ∧
    (invert zz5 0 = zz5.p1 ∧ invert zz5 0 = zz5.p - 1 ∧
      get_int zz5 (invert zz5 0) = some 1) ∧
    invert zz5 0 = 4 :=
  ⟨zz5_inv, invert_zero_is_one zz5 zz5_inv, by decide⟩

/-- C16 as stated fails: at `p = 5`, `invert` of the zero element is the
element 4, not the zero element; so `invert 0 = 0` does not hold for every
prime `p`. -/
theorem invert_zero_is_not_zero_at_five :
    Nat.Prime zz5.p.toNat ∧ zz5.p1 = zz5.p - 1 ∧ invert zz5 0 = 4 ∧
    ¬ (∀ R : ARingZZp, Nat.Prime R.p.toNat → R.p1 = R.p - 1 → invert R 0 = 0) := by
  refine ⟨Nat.prime_five, by decide, by decide, ?_⟩
  intro hall
  have := hall zz5 Nat.prime_five (by decide)
  revert this
  decide

/-- C16 amended: for every prime `p`, with `p1 = p - 1`, `invert` of the
zero element is `p - 1`, the representation of the residue 1, and is never
the zero element. -/
theorem invert_zero_is_group_order (R : ARingZZp) (hp : Nat.Prime R.p.toNat)
    (hp1 : R.p1 = R.p - 1) :
    invert R 0 = R.p - 1 ∧ invert R 0 ≠ 0 := by
  have h2 := hp.two_le
  rw [invert_zero, hp1]
  exact ⟨rfl, by omega⟩

/-- C16 amended, at `p = 2`: `invert 0` is the element 1. -/
theorem invert_zero_is_group_order_witness :
    Nat.Prime zz2.p.toNat ∧ zz2.p1 = zz2.p - 1 ∧
    (invert zz2 0 = zz2.p - 1 ∧ invert zz2 0 ≠ 0) ∧ invert zz2 0 = 1 :=
  ⟨Nat.prime_two, by decide,
    invert_zero_is_group_order zz2 Nat.prime_two (by decide), by decide⟩

/-! ## Rationals -/

/-- The arbitrary-precision integer path: `set_from_mpz` reads `log_table`
at the floor remainder of `n` by `p`, in bounds, and the element decodes to
it. -/
theorem TableInvariant.set_from_mpz_spec {R : ARingZZp} (h : TableInvariant R)
    (n : Int) :
    ∃ r, set_from_mpz R n = some r ∧ 0 ≤ r ∧ r < R.p ∧
      R.exp_table r = some (n % R.p) := by
  have h2 := h.two_le
  obtain ⟨r, hr, hr0, hrp, hre⟩ :=
    h.log_spec (v := n % R.p) (Int.emod_nonneg _ (by omega))
      (Int.emod_lt_of_pos _ (by omega))
  refine ⟨r, ?_, hr0, hrp, hre⟩
  simp only [set_from_mpz, Int.fmod_eq_emod n (by omega : 0 ≤ R.p), hr]

/-- Under the table invariant, for a numerator `n` and a denominator `d`,
`set_from_mpq` is `divide` of the encodings of `n` and `d` (floor
remainder by `p`, then `log_table`). When `p` divides `d` it is the zero
element; when `p` does not divide `d` the result `r` has
`mult_exact r (E d) = E n` over the unbounded integers and its residue `x`
has `x * d ≡ n` modulo `p`. -/
theorem set_from_mpq_is_divide_exact (R : ARingZZp) (h : TableInvariant R) (n d : Int) :
    ∃ en ed, set_from_mpz R n = some en ∧ set_from_mpz R d = some ed ∧
      R.log_table (Int.fmod n R.p) = some en ∧
      R.log_table (Int.fmod d R.p) = some ed ∧
      get_int R en = some (n % R.p) ∧ get_int R ed = some (d % R.p) ∧
      set_from_mpq R n d = some (divide R en ed) ∧
      (R.p ∣ d → divide R en ed = 0) ∧
      (¬ R.p ∣ d →
        mult_exact R (divide R en ed) ed = en ∧
        ∃ x, get_int R (divide R en ed) = some x ∧ x * d ≡ n [ZMOD R.p]) := by
  have h2 := h.two_le
  have hp1 := h.p1_eq
  have hz := h.2.2.1
  obtain ⟨en, hen, hn0, hnp, hne⟩ := h.set_from_mpz_spec n
  obtain ⟨ed, hed, hd0, hdp, hde⟩ := h.set_from_mpz_spec d
  refine ⟨en, ed, hen, hed, hen, hed, hne, hde, ?_, ?_, ?_⟩
  · simp only [set_from_mpq, hen, hed, Option.bind_eq_bind, Option.some_bind]
    rfl
  · intro hdvd
    rw [Int.emod_eq_zero_of_dvd hdvd] at hde
    have hed0 : ed = 0 := h.exp_inj hd0 hdp (le_refl _) (by omega) hde hz
    rw [hed0]
    simp [divide]
  · intro hndvd
    have hedne : ed ≠ 0 := by
      rintro rfl
      rw [hz] at hde
      have h0 : d % R.p = 0 := by
        have := Option.some.inj hde
        omega
      exact hndvd (Int.dvd_of_emod_eq_zero h0)
    by_cases hen0 : en = 0
    · subst hen0
      rw [hz] at hne
      have hn0' : n % R.p = 0 := by
        have := Option.some.inj hne
        omega
      have hdiv0 : divide R 0 ed = 0 := by simp [divide]
      rw [hdiv0]
      refine ⟨by simp [mult_exact], 0, hz, ?_⟩
      rw [zero_mul]
      show (0 : Int) % R.p = n % R.p
      rw [hn0']
      simp
    · obtain ⟨q1, qp, qm⟩ :=
        divide_spec R hp1 (by omega : 1 ≤ en) hnp (by omega : 1 ≤ ed) hdp
      obtain ⟨x, hx, hx0, hxp, -⟩ :=
        h.exp_spec (by omega : 0 ≤ divide R en ed) qp
      refine ⟨qm, x, hx, ?_⟩
      obtain ⟨-, -, me⟩ := h.mult_exact_decode (by omega) qp hd0 hdp hx hde
      rw [qm, hne] at me
      have hval : n % R.p = x * (d % R.p) % R.p := Option.some.inj me
      have h1 : x * (d % R.p) ≡ x * d [ZMOD R.p] :=
        (Int.mod_modEq d R.p).mul_left x
      have h3 : x * (d % R.p) ≡ n [ZMOD R.p] := by
        show x * (d % R.p) % R.p = n % R.p
        rw [← hval]
      exact h1.symm.trans h3

/-! ## The coded complement and the range of the operations -/

/-- C's truncating remainder of a negative `n` by a positive `b` is minus
the remainder of `-n`. -/
theorem cmod_of_neg (n b : Int) (hn : n < 0) (hb : 0 < b) :
    cmod n b = -((-n) % b) := by
  unfold cmod
  have hdiv : b * ((-n) / b) + (-n) % b = -n := Int.ediv_add_emod (-n) b
  have hq : n.tdiv b = -((-n) / b) := by
    have h1 : n.tdiv b = (-(-n)).tdiv b := by rw [neg_neg]
    rw [h1, Int.neg_tdiv, Int.tdiv_eq_ediv (by omega) (le_of_lt hb)]
  rw [Int.tmod_def, hq]
  linear_combination hdiv

/-- C's truncating remainder by a positive `b` lies strictly between `-b`
and `b`. -/
theorem cmod_bounds (a b : Int) (hb : 0 < b) : -b < cmod a b ∧ cmod a b < b := by
  refine ⟨?_, Int.tmod_lt_of_pos a hb⟩
  rcases le_or_lt 0 a with ha | ha
  · have : 0 ≤ cmod a b := Int.tmod_nonneg b ha
    omega
  · rw [cmod_of_neg a b ha hb]
    have := Int.emod_lt_of_pos (-a) hb
    omega

/-- For every exponent, negative ones included, `power_exact` of a nonzero
element is in `[1,p1]`. -/
theorem power_exact_range (R : ARingZZp) (hP : 0 < R.p1) {a : Int} (n : Int) (ha : a ≠ 0) :
    1 ≤ power_exact R a n ∧ power_exact R a n ≤ R.p1 := by
  obtain ⟨hlo, hhi⟩ := cmod_bounds (a * n) R.p1 hP
  rw [power_exact_of_ne_zero R n ha]
  split_ifs <;> constructor <;> omega

/-- C19: under the table invariant with primitive root `g`, for a nonzero
element `e` of `[1,p-1]`, `negate e` is `p - e`, an element of `[1,p-1]`,
`negate (negate e)` is `e`, and the residue of `negate e` times the residue
of `e` is congruent to `g` modulo `p`. -/
theorem negate_is_coded_complement (R : ARingZZp) (h : TableInvariant R) (e : Int)
    (he1 : 1 ≤ e) (hep : e < R.p) :
    negate R e = R.p - e ∧ 1 ≤ negate R e ∧ negate R e ≤ R.p - 1 ∧
      negate R (negate R e) = e ∧
      ∃ x y, get_int R e = some x ∧ get_int R (negate R e) = some y ∧
        y * x ≡ R.prim_root [ZMOD R.p] := by
  have h2 := h.two_le
  have hpow := h.2.2.2.1
  have hneg : negate R e = R.p - e := by
    unfold negate
    rw [if_pos (by omega)]
  have hneg2 : negate R (R.p - e) = e := by
    unfold negate
    rw [if_pos (by omega)]
    omega
  refine ⟨hneg, by omega, by omega, by rw [hneg, hneg2], ?_⟩
  refine ⟨_, _, hpow e he1 hep, by rw [hneg]; exact hpow (R.p - e) (by omega) (by omega), ?_⟩
  have hmul : R.prim_root ^ (R.p - e).toNat * R.prim_root ^ e.toNat
      = R.prim_root ^ (1 + (R.p - 1).toNat) := by
    rw [← pow_add]
    congr 1
    omega
  have hper := h.pow_period 1
  rw [pow_one] at hper
  have h1 : R.prim_root ^ (R.p - e).toNat % R.p * (R.prim_root ^ e.toNat % R.p)
      ≡ R.prim_root ^ (R.p - e).toNat * R.prim_root ^ e.toNat [ZMOD R.p] :=
    (Int.mod_modEq _ _).mul (Int.mod_modEq _ _)
  rw [hmul] at h1
  exact h1.trans hper

/-- C19 at `p = 5`, primitive root 2, on the element 1 (the residue 2):
`negate` is the element 4, the residue 1, and `1 * 2 ≡ 2`. -/
theorem negate_is_coded_complement_witness :
    TableInvariant zz5 ∧
    (negate zz5 1 = zz5.p - 1 ∧ 1 ≤ negate zz5 1 ∧ negate zz5 1 ≤ zz5.p - 1 ∧
      negate zz5 (negate zz5 1) = 1 ∧
      ∃ x y, get_int zz5 1 = some x ∧ get_int zz5 (negate zz5 1) = some y ∧
        y * x ≡ zz5.prim_root [ZMOD zz5.p]) ∧
    get_int zz5 1 = some 2 ∧ get_int zz5 (negate zz5 1) = some 1 :=
  ⟨zz5_inv, negate_is_coded_complement zz5 zz5_inv 1 (by decide) (by decide),
    by decide, by decide⟩

/-- Over the unbounded integers, under the table invariant, for elements
`e`, `f`, `r` of `[0,p-1]` and any integer `n`: the formulas `add_exact`,
`subtract_exact`, `mult_exact`, `power_exact` and `subtract_multiple_exact`
(on nonzero `e`, `f`), and the functions `negate`, `invert`, `divide`,
`set_from_int`, return a value of `[0,p-1]`, reading their tables in
bounds; `invert` returns a value of `[1,p-1]`, and so do `mult_exact`,
`divide` and `power_exact` on nonzero element operands. -/
theorem operations_stay_in_range_exact (R : ARingZZp) (h : TableInvariant R)
    (e f r n : Int) (he0 : 0 ≤ e) (hep : e < R.p) (hf0 : 0 ≤ f) (hfp : f < R.p)
    (hr0 : 0 ≤ r) (hrp : r < R.p) :
    (0 ≤ negate R e ∧ negate R e < R.p) ∧
    (1 ≤ invert R e ∧ invert R e < R.p) ∧
    (∃ s, add_exact R e f = some s ∧ 0 ≤ s ∧ s < R.p) ∧
    (∃ s, subtract_exact R e f = some s ∧ 0 ≤ s ∧ s < R.p) ∧
    (0 ≤ mult_exact R e f ∧ mult_exact R e f < R.p) ∧
    (0 ≤ divide R e f ∧ divide R e f < R.p) ∧
    (0 ≤ power_exact R e n ∧ power_exact R e n < R.p) ∧
    (∃ s, set_from_int R n = some s ∧ 0 ≤ s ∧ s < R.p) ∧
    (e ≠ 0 → f ≠ 0 →
      ∃ s, subtract_multiple_exact R r e f = some s ∧ 0 ≤ s ∧ s < R.p) ∧
    (e ≠ 0 → f ≠ 0 → 1 ≤ mult_exact R e f ∧ 1 ≤ divide R e f) ∧
    (e ≠ 0 → 1 ≤ power_exact R e n) := by
  have h2 := h.two_le
  have hp1 := h.p1_eq
  obtain ⟨x, hx, hx0, hxp, -⟩ := h.exp_spec he0 hep
  obtain ⟨y, hy, hy0, hyp, -⟩ := h.exp_spec hf0 hfp
  obtain ⟨z, hz, hz0, hzp, -⟩ := h.exp_spec hr0 hrp
  obtain ⟨m0, mp, me⟩ := h.mult_exact_decode he0 hep hf0 hfp hx hy
  have hdiv : 0 ≤ divide R e f ∧ divide R e f < R.p ∧
      (e ≠ 0 → f ≠ 0 → 1 ≤ divide R e f) := by
    by_cases hz : e ≠ 0 ∧ f ≠ 0
    · obtain ⟨d1, d2, -⟩ :=
        divide_spec R hp1 (by omega : 1 ≤ e) hep (by omega : 1 ≤ f) hfp
      exact ⟨by omega, d2, fun _ _ => d1⟩
    · have : divide R e f = 0 := by
        unfold divide
        rw [if_neg hz]
      rw [this]
      exact ⟨le_refl _, by omega, fun h1 h2 => absurd ⟨h1, h2⟩ hz⟩
  have hpw : 0 ≤ power_exact R e n ∧ power_exact R e n < R.p ∧ (e ≠ 0 → 1 ≤ power_exact R e n) := by
    by_cases hz : e ≠ 0
    · obtain ⟨q1, q2⟩ := power_exact_range R (by omega : 0 < R.p1) n hz
      exact ⟨by omega, by omega, fun _ => q1⟩
    · have : power_exact R e n = 0 := by
        unfold power_exact
        rw [if_neg hz]
      rw [this]
      exact ⟨le_refl _, by omega, fun h1 => absurd h1 hz⟩
  refine ⟨?_, ?_, ?_, ?_, ⟨m0, mp⟩, ⟨hdiv.1, hdiv.2.1⟩, ⟨hpw.1, hpw.2.1⟩, ?_, ?_, ?_,
    hpw.2.2⟩
  · unfold negate
    split_ifs <;> constructor <;> omega
  · have hi : invert R e = if R.p1 - e = 0 then R.p1 else R.p1 - e := rfl
    rw [hi]
    split_ifs <;> constructor <;> omega
  · obtain ⟨s, hs, hs0, hsp, -⟩ := h.add_exact_spec hx hx0 hxp hy hy0 hyp
    exact ⟨s, hs, hs0, hsp⟩
  · obtain ⟨s, hs, hs0, hsp, -⟩ := h.subtract_exact_spec hx hx0 hxp hy hy0 hyp
    exact ⟨s, hs, hs0, hsp⟩
  · obtain ⟨s, hs, hs0, hsp, -⟩ := h.set_from_int_spec n
    exact ⟨s, hs, hs0, hsp⟩
  · intro hez hfz
    have heq : subtract_multiple_exact R r e f = subtract_exact R r (mult_exact R e f) := by
      rw [mult_exact_of_ne_zero R hez hfz]
      rfl
    obtain ⟨s, hs, hs0, hsp, -⟩ :=
      h.subtract_exact_spec hz hz0 hzp me (Int.emod_nonneg _ (by omega))
        (Int.emod_lt_of_pos _ (by omega))
    exact ⟨s, by rw [heq, hs], hs0, hsp⟩
  · intro hez hfz
    obtain ⟨m1, -, -⟩ :=
      h.mult_exact_spec (by omega : 1 ≤ e) hep (by omega : 1 ≤ f) hfp hx hy
    exact ⟨m1, hdiv.2.2 hez hfz⟩

/-! ## The tables of a large prime satisfy the invariant -/

theorem powmodAux_eq (fuel : Nat) :
    ∀ b e m acc : Nat, e ≤ fuel → acc < m →
      powmodAux fuel b e m acc = acc * b ^ e % m := by
  induction fuel with
  | zero =>
    intro b e m acc he hacc
    obtain rfl : e = 0 := by omega
    simp [powmodAux, Nat.mod_eq_of_lt hacc]
  | succ fuel ih =>
    intro b e m acc he hacc
    have hm : 0 < m := by omega
    unfold powmodAux
    by_cases he0 : e = 0
    · subst he0
      simp [Nat.mod_eq_of_lt hacc]
    · rw [if_neg he0]
      have hsq : (b * b % m) ^ (e / 2) ≡ b ^ (2 * (e / 2)) [MOD m] := by
        have h1 : b * b % m ≡ b ^ 2 [MOD m] := by
          rw [pow_two]
          exact Nat.mod_modEq _ _
        have h2 := h1.pow (e / 2)
        rwa [← pow_mul] at h2
      by_cases hodd : e % 2 = 1
      · rw [if_pos hodd, ih _ _ _ _ (by omega) (Nat.mod_lt _ hm)]
        have h3 : acc * b % m * (b * b % m) ^ (e / 2)
            ≡ acc * b * b ^ (2 * (e / 2)) [MOD m] :=
          (Nat.mod_modEq _ _).mul hsq
        have h4 : acc * b * b ^ (2 * (e / 2)) = acc * b ^ e := by
          have he2 : e = 2 * (e / 2) + 1 := by omega
          conv_rhs => rw [he2, pow_succ]
          ring
        rw [h4] at h3
        exact h3
      · rw [if_neg hodd, ih _ _ _ _ (by omega) hacc]
        have h3 : acc * (b * b % m) ^ (e / 2) ≡ acc * b ^ (2 * (e / 2)) [MOD m] :=
          (Nat.ModEq.refl acc).mul hsq
        have he2 : 2 * (e / 2) = e := by omega
        rw [he2] at h3
        exact h3

/-- The function `powmod` is the power modulo `m`. -/
theorem powmod_eq (b e m : Nat) (hm : 1 < m) : powmod b e m = b ^ e % m := by
  unfold powmod
  rw [powmodAux_eq e _ _ _ _ (le_refl _) (Nat.mod_lt _ (by omega)),
    Nat.mod_eq_of_lt hm, one_mul]
  exact (Nat.mod_modEq b m).pow e

/-- In `ZMod p` a power of `g` is 1 exactly when `powmod` says so. -/
theorem zmod_pow_eq_one_iff (p g k : Nat) (hp : 1 < p) :
    (g : ZMod p) ^ k = 1 ↔ powmod g k p = 1 := by
  rw [powmod_eq g k p hp]
  have h1 : (g : ZMod p) ^ k = ((g ^ k : Nat) : ZMod p) := by push_cast; rfl
  have h2 : (1 : ZMod p) = ((1 : Nat) : ZMod p) := by simp
  rw [h1, h2, ZMod.natCast_eq_natCast_iff]
  unfold Nat.ModEq
  rw [Nat.mod_eq_of_lt hp]

/-- In `ZMod p` two powers of `g` agree exactly when `powmod` agrees. -/
theorem zmod_pow_eq_pow_iff (p g k l : Nat) (hp : 1 < p) :
    (g : ZMod p) ^ k = (g : ZMod p) ^ l ↔ powmod g k p = powmod g l p := by
  rw [powmod_eq g k p hp, powmod_eq g l p hp]
  have h1 : (g : ZMod p) ^ k = ((g ^ k : Nat) : ZMod p) := by push_cast; rfl
  have h2 : (g : ZMod p) ^ l = ((g ^ l : Nat) : ZMod p) := by push_cast; rfl
  rw [h1, h2, ZMod.natCast_eq_natCast_iff]
  rfl

/-- An element of order `p - 1` modulo a prime `p` is not zero. -/
theorem root_ne_zero (p g : Nat) (hp : p.Prime)
    (hord : orderOf (g : ZMod p) = p - 1) : (g : ZMod p) ≠ 0 := by
  haveI : Fact p.Prime := ⟨hp⟩
  have hp1 := hp.one_lt
  intro hg
  have hone : (g : ZMod p) ^ (p - 1) = 1 := by
    rw [← hord]
    exact pow_orderOf_eq_one _
  rw [hg, zero_pow (by omega)] at hone
  exact zero_ne_one hone

/-- A primitive root has no power that vanishes modulo `p`. -/
theorem powmod_ne_zero (p g k : Nat) (hp : p.Prime)
    (hord : orderOf (g : ZMod p) = p - 1) : powmod g k p ≠ 0 := by
  haveI : Fact p.Prime := ⟨hp⟩
  have hp1 := hp.one_lt
  intro hk
  rw [powmod_eq g k p hp1] at hk
  have hdvd : p ∣ g ^ k := Nat.dvd_of_mod_eq_zero hk
  have hz : ((g ^ k : Nat) : ZMod p) = 0 :=
    (ZMod.natCast_zmod_eq_zero_iff_dvd _ _).mpr hdvd
  rw [Nat.cast_pow] at hz
  exact pow_ne_zero k (root_ne_zero p g hp hord) hz

theorem powmod_inj_of_le (p g k l : Nat) (hp : p.Prime)
    (hord : orderOf (g : ZMod p) = p - 1) (hk1 : 1 ≤ k) (hkl : k ≤ l)
    (hlp : l < p) (heq : powmod g k p = powmod g l p) : k = l := by
  haveI : Fact p.Prime := ⟨hp⟩
  have hp1 := hp.one_lt
  have h1 := (zmod_pow_eq_pow_iff p g k l hp1).mpr heq
  have hl : l = k + (l - k) := by omega
  rw [hl, pow_add] at h1
  have h2 : (g : ZMod p) ^ (l - k) = 1 := by
    have h3 : (g : ZMod p) ^ k * 1 = (g : ZMod p) ^ k * (g : ZMod p) ^ (l - k) := by
      rw [mul_one]
      exact h1
    exact (mul_left_cancel₀ (pow_ne_zero k (root_ne_zero p g hp hord)) h3).symm
  have hdvd := orderOf_dvd_of_pow_eq_one h2
  rw [hord] at hdvd
  have := Nat.eq_zero_of_dvd_of_lt hdvd (by omega)
  omega

/-- The powers of a primitive root with exponents in `[1,p-1]` are
different modulo `p`. -/
theorem powmod_inj (p g k l : Nat) (hp : p.Prime)
    (hord : orderOf (g : ZMod p) = p - 1) (hk1 : 1 ≤ k) (hkp : k < p)
    (hl1 : 1 ≤ l) (hlp : l < p) (hkl : powmod g k p = powmod g l p) : k = l := by
  rcases le_total k l with h | h
  · exact powmod_inj_of_le p g k l hp hord hk1 h hlp hkl
  · exact (powmod_inj_of_le p g l k hp hord hl1 h hkp hkl.symm).symm

/-- A ring whose tables are `expTable p g` and `logTable p g`, for a prime
`p` and an element `g` of order `p - 1` modulo `p`, satisfies the table
invariant. -/
theorem tables_invariant (R : ARingZZp) (p g : Nat) (hp : p.Prime)
    (hord : orderOf (g : ZMod p) = p - 1) (hRp : R.p = (p : Int))
    (hRp1 : R.p1 = R.p - 1) (hRg : R.prim_root = (g : Int))
    (hexp : R.exp_table = expTable p g) (hlog : R.log_table = logTable p g) :
    TableInvariant R := by
  have hp1 := hp.one_lt
  have hpow : ∀ e : Int, 1 ≤ e → e < R.p →
      R.exp_table e = some (R.prim_root ^ e.toNat % R.p) := by
    intro e he1 hep
    rw [hexp, hRg, hRp]
    unfold expTable
    rw [if_neg (by omega), if_pos ⟨he1, by omega⟩, powmod_eq g e.toNat p hp1]
    push_cast
    rfl
  refine ⟨by rw [hRp]; exact hp, hRp1, by rw [hexp]; rfl, hpow, ?_⟩
  intro e he0 hep
  rcases eq_or_lt_of_le he0 with he | he
  · subst he
    rw [hexp, hlog]
    rfl
  · have he1 : 1 ≤ e := by omega
    rw [hexp]
    unfold expTable
    rw [if_neg (by omega), if_pos ⟨he1, by omega⟩, Option.some_bind, hlog]
    have hv0 := powmod_ne_zero p g e.toNat hp hord
    have hvp : powmod g e.toNat p < p := by
      rw [powmod_eq g e.toNat p hp1]
      exact Nat.mod_lt _ (by omega)
    unfold logTable
    rw [if_neg (by omega), if_pos ⟨by omega, by omega⟩]
    have hfind : (List.range p).find?
        (fun k => decide (1 ≤ k) && powmod g k p == ((powmod g e.toNat p : Nat) : Int).toNat)
        = some e.toNat := by
      rw [Int.toNat_ofNat]
      cases hres : (List.range p).find?
          (fun k => decide (1 ≤ k) && powmod g k p == powmod g e.toNat p) with
      | none =>
        rw [List.find?_eq_none] at hres
        have := hres e.toNat (List.mem_range.mpr (by omega))
        simp at this
        omega
      | some k =>
        have hk := List.find?_some hres
        have hkm := List.mem_range.mp (List.mem_of_find?_eq_some hres)
        simp only [Bool.and_eq_true, decide_eq_true_eq, beq_iff_eq] at hk
        have := powmod_inj p g k e.toNat hp hord hk.1 hkm (by omega) (by omega) hk.2
        rw [this]
    rw [hfind]
    show some ((e.toNat : Nat) : Int) = some e
    rw [Int.toNat_of_nonneg he0]

/-! ## The prime `2^31 - 1` and its primitive root 7 -/

/-- The prime divisors of `2^31 - 2 = 2 * 3^2 * 7 * 11 * 31 * 151 * 331`. -/
theorem m31_pred_prime_divisors (q : Nat) (hq : q.Prime) (hd : q ∣ 2147483646) :
    q = 2 ∨ q = 3 ∨ q = 7 ∨ q = 11 ∨ q = 31 ∨ q = 151 ∨ q = 331 := by
  have hfac : 2147483646 = 2 * (3 * (3 * (7 * (11 * (31 * (151 * 331)))))) := by
    norm_num
  rw [hfac] at hd
  rcases (Nat.Prime.dvd_mul hq).mp hd with h | hd
  · exact Or.inl ((Nat.prime_dvd_prime_iff_eq hq Nat.prime_two).mp h)
  rcases (Nat.Prime.dvd_mul hq).mp hd with h | hd
  · exact Or.inr (Or.inl ((Nat.prime_dvd_prime_iff_eq hq Nat.prime_three).mp h))
  rcases (Nat.Prime.dvd_mul hq).mp hd with h | hd
  · exact Or.inr (Or.inl ((Nat.prime_dvd_prime_iff_eq hq Nat.prime_three).mp h))
  rcases (Nat.Prime.dvd_mul hq).mp hd with h | hd
  · exact Or.inr (Or.inr (Or.inl
      ((Nat.prime_dvd_prime_iff_eq hq (by norm_num)).mp h)))
  rcases (Nat.Prime.dvd_mul hq).mp hd with h | hd
  · exact Or.inr (Or.inr (Or.inr (Or.inl
      ((Nat.prime_dvd_prime_iff_eq hq (by norm_num)).mp h))))
  rcases (Nat.Prime.dvd_mul hq).mp hd with h | hd
  · exact Or.inr (Or.inr (Or.inr (Or.inr (Or.inl
      ((Nat.prime_dvd_prime_iff_eq hq (by norm_num)).mp h)))))
  rcases (Nat.Prime.dvd_mul hq).mp hd with h | h
  · exact Or.inr (Or.inr (Or.inr (Or.inr (Or.inr (Or.inl
      ((Nat.prime_dvd_prime_iff_eq hq (by norm_num)).mp h))))))
  · exact Or.inr (Or.inr (Or.inr (Or.inr (Or.inr (Or.inr
      ((Nat.prime_dvd_prime_iff_eq hq (by norm_num)).mp h))))))

/-- Lucas data: 7 to the `2^31 - 2` is 1 modulo `2^31 - 1`. -/
theorem m31_pow_pred :
    ((7 : Nat) : ZMod 2147483647) ^ (2147483647 - 1) = 1 :=
  (zmod_pow_eq_one_iff 2147483647 7 _ (by norm_num)).mpr (by decide)

/-- Lucas data: 7 to the `(2^31 - 2) / q` is not 1 modulo `2^31 - 1`, for
each prime divisor `q` of `2^31 - 2`. -/
theorem m31_pow_pred_div (q : Nat) (hq : q.Prime) (hd : q ∣ 2147483647 - 1) :
    ((7 : Nat) : ZMod 2147483647) ^ ((2147483647 - 1) / q) ≠ 1 := by
  have hd2 : q ∣ 2147483646 := hd
  intro h1
  rw [zmod_pow_eq_one_iff 2147483647 7 _ (by norm_num)] at h1
  rcases m31_pred_prime_divisors q hq hd2 with h | h | h | h | h | h | h <;>
    subst h <;> revert h1 <;> decide

/-- The number `2^31 - 1 = INT_MAX` is prime. -/
theorem m31_prime : Nat.Prime 2147483647 :=
  lucas_primality 2147483647 ((7 : Nat) : ZMod 2147483647) m31_pow_pred
    m31_pow_pred_div

/-- Modulo `2^31 - 1` the order of 7 is `2^31 - 2`: it is a primitive root. -/
theorem m31_order : orderOf ((7 : Nat) : ZMod 2147483647) = 2147483647 - 1 :=
  orderOf_eq_of_pow_and_pow_div_prime (by norm_num) m31_pow_pred m31_pow_pred_div

theorem zzM31_inv : TableInvariant zzM31 :=
  tables_invariant zzM31 2147483647 7 m31_prime m31_order rfl rfl rfl rfl rfl

theorem zz7_inv : TableInvariant zz7 := by
  refine ⟨(show Nat.Prime 7 by norm_num), rfl, rfl, ?_, ?_⟩
  · intro e h1 h2
    have h2' : e < 7 := h2
    interval_cases e <;> rfl
  · intro e h1 h2
    have h2' : e < 7 := h2
    interval_cases e <;> rfl

/-! ## Machine width -/

/-- A value of a 32-bit `int` is stored unchanged. -/
theorem wrap32_of_fits (x : Int) (h : fits32 x) : wrap32 x = x := by
  unfold fits32 at h
  unfold wrap32
  omega

/-- C's truncating remainder is congruent to the dividend. -/
theorem cmod_modEq (a b : Int) : cmod a b ≡ a [ZMOD b] := by
  unfold cmod
  rw [Int.modEq_iff_dvd, Int.tmod_def]
  exact ⟨a.tdiv b, by ring⟩

/-- Two numbers of `[1,m]` congruent modulo `m` are equal. -/
theorem eq_of_modEq_of_range (m r s : Int) (hr1 : 1 ≤ r) (hrm : r ≤ m)
    (hs1 : 1 ≤ s) (hsm : s ≤ m) (h : r ≡ s [ZMOD m]) : r = s := by
  obtain ⟨k, hk⟩ := Int.modEq_iff_dvd.mp h
  have hk1 : k < 1 := by
    by_contra hcon
    have : m * 1 ≤ m * k := Int.mul_le_mul_of_nonneg_left (by omega) (by omega)
    omega
  have hk2 : -1 < k := by
    by_contra hcon
    have : m * k ≤ m * (-1) := Int.mul_le_mul_of_nonneg_left (by omega) (by omega)
    omega
  have hk0 : k = 0 := by omega
  rw [hk0, mul_zero] at hk
  omega

/-- On a nonzero element `power` is the truncated remainder of the stored
product by `p1`, moved up by `p1` when it is not positive. -/
theorem power_of_ne_zero (R : ARingZZp) {a : Int} (n : Int) (ha : a ≠ 0) :
    power R a n
      = if cmod (wrap32 (a * n)) R.p1 ≤ 0
        then wrap32 (cmod (wrap32 (a * n)) R.p1 + R.p1)
        else cmod (wrap32 (a * n)) R.p1 := by
  unfold power
  rw [if_pos ha]

/-- C12 as stated fails: at `p = 7` the element 2 (the residue 2) and the
exponent `n = 2^31 - 1 = INT_MAX` have the product `2^32 - 2`, stored in an
`int` as `-2`; `power` returns the element 4, which is not congruent to
`e * n` modulo 6: the element of `[1,6]` congruent to `e * n` is 2, the
value of the exact reference `power_exact`. -/
theorem power_wraps_at_seven :
    TableInvariant zz7 ∧ fits32 zz7.p ∧ fits32 2147483647 ∧
    ¬ fits32 (2 * 2147483647) ∧ wrap32 (2 * 2147483647) = -2 ∧
    power zz7 2 2147483647 = 4 ∧
    ¬ (power zz7 2 2147483647 ≡ 2 * 2147483647 [ZMOD zz7.p - 1]) ∧
    power_exact zz7 2 2147483647 = 2 ∧
    ¬ (∀ R : ARingZZp, Nat.Prime R.p.toNat → R.p1 = R.p - 1 → fits32 R.p →
        ∀ e n : Int, 1 ≤ e → e < R.p → fits32 n →
          power R e n ≡ e * n [ZMOD R.p - 1]) := by
  refine ⟨zz7_inv, by decide, by decide, by decide, by decide, by decide,
    by decide, by decide, ?_⟩
  intro hall
  have := hall zz7 zz7_inv.1 rfl (by decide) 2 2147483647 (by decide) (by decide)
    (by decide)
  revert this
  decide

/-- C12 amended: for a prime `p` that fits a 32-bit `int`, with
`p1 = p - 1`, an element `e` of `[0,p-1]` and an exponent `n` whose product
`e * n` fits a 32-bit `int`: `power 0 n` is 0, and for `e ≠ 0`
`power e n` is the unique `r` of `[1,p-1]` congruent to `e * n` modulo
`p - 1`; it is the value of the exact reference `power_exact`. -/
theorem power32_is_scaled_exponent (R : ARingZZp) (hp : Nat.Prime R.p.toNat)
    (hp1 : R.p1 = R.p - 1) (hfit : fits32 R.p) (e n : Int) (he0 : 0 ≤ e)
    (hep : e < R.p) (hprod : fits32 (e * n)) :
    (e = 0 → power R e n = 0) ∧
    (e ≠ 0 →
      1 ≤ power R e n ∧ power R e n ≤ R.p - 1 ∧
      power R e n ≡ e * n [ZMOD R.p - 1] ∧
      ∀ r : Int, 1 ≤ r → r ≤ R.p - 1 → r ≡ e * n [ZMOD R.p - 1] →
        r = power R e n) ∧
    power R e n = power_exact R e n := by
  have h2 := hp.two_le
  have hP : 0 < R.p1 := by omega
  have hfp : -2147483648 ≤ R.p ∧ R.p ≤ 2147483647 := hfit
  obtain ⟨clo, chi⟩ := cmod_bounds (e * n) R.p1 hP
  have hw : wrap32 (e * n) = e * n := wrap32_of_fits _ hprod
  have heq : power R e n = power_exact R e n := by
    by_cases hez : e = 0
    · subst hez
      simp [power, power_exact]
    · rw [power_of_ne_zero R n hez, power_exact_of_ne_zero R n hez, hw]
      split_ifs with hc
      · exact wrap32_of_fits _ ⟨by omega, by omega⟩
      · rfl
  refine ⟨?_, ?_, heq⟩
  · rintro rfl
    simp [power]
  · intro hez
    obtain ⟨plo, phi⟩ := power_exact_range R hP n hez
    have hcong : power_exact R e n ≡ e * n [ZMOD R.p - 1] := by
      rw [power_exact_of_ne_zero R n hez, ← hp1]
      split_ifs
      · have h1 : cmod (e * n) R.p1 + R.p1 ≡ cmod (e * n) R.p1 [ZMOD R.p1] :=
          Int.modEq_iff_dvd.mpr ⟨-1, by ring⟩
        exact h1.trans (cmod_modEq _ _)
      · exact cmod_modEq _ _
    rw [heq]
    refine ⟨plo, by omega, hcong, ?_⟩
    intro r hr1 hrp hr
    exact eq_of_modEq_of_range (R.p - 1) r (power_exact R e n) hr1 hrp plo (by omega)
      (hr.trans hcong.symm)

/-- C12 amended, at `p = 7` on the element 2 and the exponent `-5`: the
product `-10` fits, and `power` is the element 2. -/
theorem power32_is_scaled_exponent_witness :
    Nat.Prime zz7.p.toNat ∧ zz7.p1 = zz7.p - 1 ∧ fits32 zz7.p ∧ fits32 (-5) ∧
    fits32 (2 * (-5)) ∧
    (((2 : Int) = 0 → power zz7 2 (-5) = 0) ∧
    ((2 : Int) ≠ 0 →
      1 ≤ power zz7 2 (-5) ∧ power zz7 2 (-5) ≤ zz7.p - 1 ∧
      power zz7 2 (-5) ≡ 2 * (-5) [ZMOD zz7.p - 1] ∧
      ∀ r : Int, 1 ≤ r → r ≤ zz7.p - 1 → r ≡ 2 * (-5) [ZMOD zz7.p - 1] →
        r = power zz7 2 (-5)) ∧
    power zz7 2 (-5) = power_exact zz7 2 (-5)) ∧
    power zz7 2 (-5) = 2 :=
  ⟨zz7_inv.1, by decide, by decide, by decide, by decide,
    power32_is_scaled_exponent zz7 zz7_inv.1 (by decide) (by decide) 2 (-5)
      (by decide) (by decide) (by decide),
    by decide⟩

/-- Over the unbounded integers the fused subtraction reads its tables in
bounds and returns an element of `[0,p-1]`, for an accumulator of `[0,p-1]`
and nonzero `a`, `b` of `[1,p-1]`. -/
theorem TableInvariant.subtract_multiple_exact_spec {R : ARingZZp} (h : TableInvariant R)
    {r a b : Int} (hr0 : 0 ≤ r) (hrp : r < R.p) (ha1 : 1 ≤ a) (hap : a < R.p)
    (hb1 : 1 ≤ b) (hbp : b < R.p) :
    ∃ s, subtract_multiple_exact R r a b = some s ∧ 0 ≤ s ∧ s < R.p := by
  have h2 := h.two_le
  have heq : subtract_multiple_exact R r a b = subtract_exact R r (mult_exact R a b) := by
    rw [mult_exact_of_ne_zero R (by omega) (by omega)]
    rfl
  obtain ⟨x, hx, hx0, hxp, -⟩ := h.exp_spec hr0 hrp
  obtain ⟨y, hy, -, -, -⟩ := h.exp_spec (by omega : 0 ≤ a) hap
  obtain ⟨z, hz, -, -, -⟩ := h.exp_spec (by omega : 0 ≤ b) hbp
  obtain ⟨m0, mp, me⟩ := h.mult_exact_decode (by omega) hap (by omega) hbp hy hz
  obtain ⟨s, hs, hs0, hsp, -⟩ :=
    h.subtract_exact_spec hx hx0 hxp me (Int.emod_nonneg _ (by omega))
      (Int.emod_lt_of_pos _ (by omega))
  exact ⟨s, by rw [heq, hs], hs0, hsp⟩

/-- C18 as stated fails: `p = 2^31 - 1 = INT_MAX` is a prime that fits a
32-bit `int`, with primitive root 7. On the element `p - 1` (the residue 1)
the sum `a + b` of `mult` is `2^32 - 4`, stored as `-4`, and `mult`
returns `-4` where the exact reference `mult_exact` returns `p - 1`. The
element `(p - 1) / 2` stands for the residue `p - 1`; the sum `e1 + e2` of
`add` is again stored as `-4`, an index outside `log_table`, where
`add_exact` returns an element; `subtract_multiple` reads `exp_table` at
`-4`, where `subtract_multiple_exact` returns an element. -/
theorem wraparound_differs_at_int_max :
    TableInvariant zzM31 ∧ fits32 zzM31.p ∧
    ¬ fits32 (2147483646 + 2147483646) ∧
    mult zzM31 2147483646 2147483646 = -4 ∧
    mult_exact zzM31 2147483646 2147483646 = 2147483646 ∧
    get_int zzM31 1073741823 = some 2147483646 ∧
    add zzM31 1073741823 1073741823 = none ∧
    (∃ r, add_exact zzM31 1073741823 1073741823 = some r) ∧
    subtract_multiple zzM31 0 2147483646 2147483646 = none ∧
    (∃ s, subtract_multiple_exact zzM31 0 2147483646 2147483646 = some s) := by
  refine ⟨zzM31_inv, by decide, by decide, by decide, by decide, by decide,
    by decide, ?_, by decide, ?_⟩
  · have hx : zzM31.exp_table 1073741823 = some 2147483646 := by decide
    obtain ⟨r, hr, -⟩ :=
      zzM31_inv.add_exact_spec hx (by decide) (by decide) hx (by decide) (by decide)
    exact ⟨r, hr⟩
  · obtain ⟨s, hs, -⟩ :=
      zzM31_inv.subtract_multiple_exact_spec (r := 0) (a := 2147483646) (b := 2147483646)
        (by decide) (by decide) (by decide) (by decide) (by decide) (by decide)
    exact ⟨s, hs⟩

/-- C18 amended: under the table invariant for a prime `p ≤ 2^30`, for
elements `e`, `f` and an accumulator `r` of `[0,p-1]`, the sums `e1 + e2`
of `add` and `a + b` of `mult` and `subtract_multiple` fit a 32-bit `int`,
and `add`, `mult` and `subtract_multiple` return what the exact references
`add_exact`, `mult_exact` and `subtract_multiple_exact` return. -/
theorem wraparound_agrees_up_to_two_pow_30 (R : ARingZZp) (h : TableInvariant R)
    (hsmall : R.p ≤ 1073741824) (e f r : Int) (he0 : 0 ≤ e) (hep : e < R.p)
    (hf0 : 0 ≤ f) (hfp : f < R.p) (hr0 : 0 ≤ r) (hrp : r < R.p) :
    (∃ x y, get_int R e = some x ∧ get_int R f = some y ∧ fits32 (x + y)) ∧
    fits32 (e + f) ∧
    add R e f = add_exact R e f ∧ mult R e f = mult_exact R e f ∧
    subtract_multiple R r e f = subtract_multiple_exact R r e f := by
  have h2 := h.two_le
  have hp1 := h.p1_eq
  obtain ⟨x, hx, hx0, hxp, -⟩ := h.exp_spec he0 hep
  obtain ⟨y, hy, hy0, hyp, -⟩ := h.exp_spec hf0 hfp
  obtain ⟨z, hz, hz0, hzp, -⟩ := h.exp_spec hr0 hrp
  have hxy : fits32 (x + y) := ⟨by omega, by omega⟩
  have hef : fits32 (e + f) := ⟨by omega, by omega⟩
  refine ⟨⟨x, y, hx, hy, hxy⟩, hef, ?_, ?_, ?_⟩
  · simp only [add, add_exact, hx, hy, Option.bind_eq_bind, Option.some_bind,
      wrap32_of_fits _ hxy]
    split_ifs with hc
    · rw [wrap32_of_fits _ ⟨by omega, by omega⟩]
    · rfl
  · by_cases hez : e ≠ 0 ∧ f ≠ 0
    · simp only [mult, mult_exact, if_pos hez, wrap32_of_fits _ hef]
      split_ifs with hc
      · rw [wrap32_of_fits _ ⟨by omega, by omega⟩]
      · rfl
    · simp only [mult, mult_exact, if_neg hez]
  · have hab : (if wrap32 (e + f) > R.p1 then wrap32 (wrap32 (e + f) - R.p1)
        else wrap32 (e + f)) = (if e + f > R.p1 then e + f - R.p1 else e + f) := by
      rw [wrap32_of_fits _ hef]
      split_ifs with hc
      · rw [wrap32_of_fits _ ⟨by omega, by omega⟩]
      · rfl
    have hab0 : 0 ≤ (if e + f > R.p1 then e + f - R.p1 else e + f) := by
      split_ifs <;> omega
    have habp : (if e + f > R.p1 then e + f - R.p1 else e + f) < R.p := by
      split_ifs <;> omega
    obtain ⟨w, hw, hw0, hwp, -⟩ := h.exp_spec hab0 habp
    simp only [subtract_multiple, subtract_multiple_exact, hab, hz, hw,
      Option.bind_eq_bind, Option.some_bind,
      wrap32_of_fits (z - w) ⟨by omega, by omega⟩]
    split_ifs with hc
    · rw [wrap32_of_fits _ ⟨by omega, by omega⟩]
    · rfl

/-- C18 amended, at `p = 5`, primitive root 2, on the elements 3, 4 and
the accumulator 1. -/
theorem wraparound_agrees_up_to_two_pow_30_witness :
    TableInvariant zz5 ∧ zz5.p ≤ 1073741824 ∧
    ((∃ x y, get_int zz5 3 = some x ∧ get_int zz5 4 = some y ∧ fits32 (x + y)) ∧
    fits32 (3 + 4) ∧
    add zz5 3 4 = add_exact zz5 3 4 ∧ mult zz5 3 4 = mult_exact zz5 3 4 ∧
    subtract_multiple zz5 1 3 4 = subtract_multiple_exact zz5 1 3 4) ∧
    add zz5 3 4 = some 2 ∧ mult zz5 3 4 = 3 ∧
    subtract_multiple zz5 1 3 4 = some 2 :=
  ⟨zz5_inv, by decide,
    wraparound_agrees_up_to_two_pow_30 zz5 zz5_inv (by decide) 3 4 1 (by decide)
      (by decide) (by decide) (by decide) (by decide) (by decide),
    by decide, by decide, by decide⟩

/-! ## The program and the exact reference agree when nothing overflows -/

theorem add_eq_exact (R : ARingZZp) (hsmall : R.p ≤ 1073741824) {e f x y : Int}
    (hx : R.exp_table e = some x) (hx0 : 0 ≤ x) (hxp : x < R.p)
    (hy : R.exp_table f = some y) (hy0 : 0 ≤ y) (hyp : y < R.p) :
    add R e f = add_exact R e f := by
  have hxy : fits32 (x + y) := ⟨by omega, by omega⟩
  simp only [add, add_exact, hx, hy, Option.bind_eq_bind, Option.some_bind,
    wrap32_of_fits _ hxy]
  split_ifs with hc
  · rw [wrap32_of_fits _ ⟨by omega, by omega⟩]
  · rfl

theorem mult_eq_exact (R : ARingZZp) (hp1 : R.p1 = R.p - 1)
    (hsmall : R.p ≤ 1073741824) {e f : Int} (he0 : 0 ≤ e) (hep : e < R.p)
    (hf0 : 0 ≤ f) (hfp : f < R.p) : mult R e f = mult_exact R e f := by
  have hef : fits32 (e + f) := ⟨by omega, by omega⟩
  by_cases hez : e ≠ 0 ∧ f ≠ 0
  · simp only [mult, mult_exact, if_pos hez, wrap32_of_fits _ hef]
    split_ifs with hc
    · rw [wrap32_of_fits _ ⟨by omega, by omega⟩]
    · rfl
  · simp only [mult, mult_exact, if_neg hez]

theorem subtract_eq_exact (R : ARingZZp) (hfit : fits32 R.p) {e f x y : Int}
    (hx : R.exp_table e = some x) (hx0 : 0 ≤ x) (hxp : x < R.p)
    (hy : R.exp_table f = some y) (hy0 : 0 ≤ y) (hyp : y < R.p) :
    subtract R e f = subtract_exact R e f := by
  have hP : -2147483648 ≤ R.p ∧ R.p ≤ 2147483647 := hfit
  have hxy : fits32 (x - y) := ⟨by omega, by omega⟩
  simp only [subtract, subtract_exact, hx, hy, Option.bind_eq_bind, Option.some_bind,
    wrap32_of_fits _ hxy]
  split_ifs with hc
  · rw [wrap32_of_fits _ ⟨by omega, by omega⟩]
  · rfl

theorem TableInvariant.subtract_multiple_eq_exact {R : ARingZZp}
    (h : TableInvariant R) (hsmall : R.p ≤ 1073741824) {r e f : Int}
    (hr0 : 0 ≤ r) (hrp : r < R.p) (he0 : 0 ≤ e) (hep : e < R.p)
    (hf0 : 0 ≤ f) (hfp : f < R.p) :
    subtract_multiple R r e f = subtract_multiple_exact R r e f := by
  have h2 := h.two_le
  have hp1 := h.p1_eq
  obtain ⟨z, hz, hz0, hzp, -⟩ := h.exp_spec hr0 hrp
  have hef : fits32 (e + f) := ⟨by omega, by omega⟩
  have hab : (if wrap32 (e + f) > R.p1 then wrap32 (wrap32 (e + f) - R.p1)
      else wrap32 (e + f)) = (if e + f > R.p1 then e + f - R.p1 else e + f) := by
    rw [wrap32_of_fits _ hef]
    split_ifs with hc
    · rw [wrap32_of_fits _ ⟨by omega, by omega⟩]
    · rfl
  have hab0 : 0 ≤ (if e + f > R.p1 then e + f - R.p1 else e + f) := by
    split_ifs <;> omega
  have habp : (if e + f > R.p1 then e + f - R.p1 else e + f) < R.p := by
    split_ifs <;> omega
  obtain ⟨w, hw, hw0, hwp, -⟩ := h.exp_spec hab0 habp
  simp only [subtract_multiple, subtract_multiple_exact, hab, hz, hw,
    Option.bind_eq_bind, Option.some_bind,
    wrap32_of_fits (z - w) ⟨by omega, by omega⟩]
  split_ifs with hc
  · rw [wrap32_of_fits _ ⟨by omega, by omega⟩]
  · rfl

theorem power_eq_exact (R : ARingZZp) (h2 : 2 ≤ R.p) (hp1 : R.p1 = R.p - 1)
    (hfit : fits32 R.p) {e : Int} (n : Int) (hprod : fits32 (e * n)) :
    power R e n = power_exact R e n := by
  have hP : 0 < R.p1 := by omega
  have hfp : -2147483648 ≤ R.p ∧ R.p ≤ 2147483647 := hfit
  obtain ⟨clo, chi⟩ := cmod_bounds (e * n) R.p1 hP
  by_cases hez : e = 0
  · subst hez
    simp [power, power_exact]
  · rw [power_of_ne_zero R n hez, power_exact_of_ne_zero R n hez,
      wrap32_of_fits _ hprod]
    split_ifs with hc
    · exact wrap32_of_fits _ ⟨by omega, by omega⟩
    · rfl

/-- For every exponent, whether or not the product overflows, `power` of a
nonzero element is in `[1,p1]`, when `p` fits a 32-bit `int`. -/
theorem power_range (R : ARingZZp) (h2 : 2 ≤ R.p) (hp1 : R.p1 = R.p - 1)
    (hfit : fits32 R.p) {a : Int} (n : Int) (ha : a ≠ 0) :
    1 ≤ power R a n ∧ power R a n ≤ R.p1 := by
  have hP : 0 < R.p1 := by omega
  have hfp : -2147483648 ≤ R.p ∧ R.p ≤ 2147483647 := hfit
  obtain ⟨clo, chi⟩ := cmod_bounds (wrap32 (a * n)) R.p1 hP
  rw [power_of_ne_zero R n ha]
  split_ifs with hc
  · rw [wrap32_of_fits _ ⟨by omega, by omega⟩]
    constructor <;> omega
  · constructor <;> omega

/-! ## Addition -/

/-- C2 as stated fails: at the prime `p = 2^31 - 1`, primitive root 7, the
element `(p - 1) / 2` stands for the residue `p - 1`; `add` of it and
itself stores the sum `2^32 - 4` of the residues as `-4` and reads
`log_table` at `-4`, outside the table. So `add` does not return an element
for every prime `p`. -/
theorem add_wraps_at_int_max :
    TableInvariant zzM31 ∧ fits32 zzM31.p ∧
    get_int zzM31 1073741823 = some 2147483646 ∧
    wrap32 (2147483646 + 2147483646) = -4 ∧
    add zzM31 1073741823 1073741823 = none ∧
    ¬ (∀ R : ARingZZp, TableInvariant R → ∀ e f : Int,
        0 ≤ e → e < R.p → 0 ≤ f → f < R.p → ∃ r, add R e f = some r) := by
  refine ⟨zzM31_inv, by decide, by decide, by decide, by decide, ?_⟩
  intro hall
  obtain ⟨r, hr⟩ := hall zzM31 zzM31_inv 1073741823 1073741823 (by decide)
    (by decide) (by decide) (by decide)
  have hnone : add zzM31 1073741823 1073741823 = none := by decide
  rw [hnone] at hr
  exact Option.noConfusion hr

/-- C2 amended: under the table invariant for a prime `p ≤ 2^30`, for
elements `e`, `f` of `[0,p-1]`, `add` returns an element of `[0,p-1]` whose
residue is the sum of the residues of `e` and `f` modulo `p`. -/
theorem add_is_modular_addition (R : ARingZZp) (h : TableInvariant R)
    (hsmall : R.p ≤ 1073741824) (e f : Int)
    (he0 : 0 ≤ e) (hep : e < R.p) (hf0 : 0 ≤ f) (hfp : f < R.p) :
    ∃ x y r, get_int R e = some x ∧ get_int R f = some y ∧
      add R e f = some r ∧ 0 ≤ r ∧ r < R.p ∧
      get_int R r = some ((x + y) % R.p) := by
  obtain ⟨x, hx, hx0, hxp, -⟩ := h.exp_spec he0 hep
  obtain ⟨y, hy, hy0, hyp, -⟩ := h.exp_spec hf0 hfp
  obtain ⟨r, hr, hr0, hrp, hre⟩ := h.add_exact_spec hx hx0 hxp hy hy0 hyp
  rw [← add_eq_exact R hsmall hx hx0 hxp hy hy0 hyp] at hr
  exact ⟨x, y, r, hx, hy, hr, hr0, hrp, hre⟩

/-- C2 amended, at `p = 5`, primitive root 2: the elements 1 and 3 stand
for the residues 2 and 3, and `fromInteger(2)` added to `fromInteger(3)`
decodes to 0. -/
theorem add_is_modular_addition_witness :
    TableInvariant zz5 ∧ zz5.p ≤ 1073741824 ∧
      (∃ x y r, get_int zz5 1 = some x ∧ get_int zz5 3 = some y ∧
        add zz5 1 3 = some r ∧ 0 ≤ r ∧ r < zz5.p ∧
        get_int zz5 r = some ((x + y) % zz5.p)) ∧
      ((set_from_int zz5 2).bind fun a => (set_from_int zz5 3).bind fun b =>
        (add zz5 a b).bind (get_int zz5)) = some 0 :=
  ⟨zz5_inv, by decide,
    add_is_modular_addition zz5 zz5_inv (by decide) 1 3 (by decide) (by decide)
      (by decide) (by decide),
    by decide⟩

/-! ## Multiplication -/

/-- C3 as stated fails: at the prime `p = 2^31 - 1` the element `p - 1`
stands for the residue 1; the sum `a + b` of `mult` on it and itself is
`2^32 - 4`, stored as `-4`, and `mult` returns `-4`: not an element of
`[1,p-1]`, and `exp_table` has no entry for it. -/
theorem mult_wraps_at_int_max :
    TableInvariant zzM31 ∧ fits32 zzM31.p ∧
    get_int zzM31 2147483646 = some 1 ∧
    mult zzM31 2147483646 2147483646 = -4 ∧
    get_int zzM31 (mult zzM31 2147483646 2147483646) = none ∧
    ¬ (∀ R : ARingZZp, TableInvariant R → ∀ e f : Int,
        1 ≤ e → e < R.p → 1 ≤ f → f < R.p → 1 ≤ mult R e f) := by
  refine ⟨zzM31_inv, by decide, by decide, by decide, by decide, ?_⟩
  intro hall
  have := hall zzM31 zzM31_inv 2147483646 2147483646 (by decide) (by decide)
    (by decide) (by decide)
  revert this
  decide

/-- C3 amended: under the table invariant for a prime `p ≤ 2^30`, for
elements `e`, `f` of `[0,p-1]`, the residue of `mult e f` is the product of
the residues modulo `p`; `mult` is 0 when an operand is 0, and otherwise it
is the unique `r` of `[1,p-1]` congruent to `e + f` modulo `p - 1`. -/
theorem mult_is_modular_multiplication (R : ARingZZp) (h : TableInvariant R)
    (hsmall : R.p ≤ 1073741824)
    (e f : Int) (he0 : 0 ≤ e) (hep : e < R.p) (hf0 : 0 ≤ f) (hfp : f < R.p) :
    (∃ x y, get_int R e = some x ∧ get_int R f = some y ∧
      get_int R (mult R e f) = some (x * y % R.p)) ∧
    (e = 0 ∨ f = 0 → mult R e f = 0) ∧
    (e ≠ 0 → f ≠ 0 →
      1 ≤ mult R e f ∧ mult R e f ≤ R.p - 1 ∧
      mult R e f ≡ e + f [ZMOD R.p - 1] ∧
      ∀ r : Int, 1 ≤ r → r ≤ R.p - 1 → r ≡ e + f [ZMOD R.p - 1] →
        r = mult R e f) := by
  rw [mult_eq_exact R h.p1_eq hsmall he0 hep hf0 hfp]
  exact mult_exact_is_modular_multiplication R h e f he0 hep hf0 hfp

/-- C3 amended, at `p = 5`, primitive root 2, on the elements 3 and 2 (the
residues 3 and 4): `mult` is the element 1, the residue 2. -/
theorem mult_is_modular_multiplication_witness :
    TableInvariant zz5 ∧ zz5.p ≤ 1073741824 ∧
    ((∃ x y, get_int zz5 3 = some x ∧ get_int zz5 2 = some y ∧
      get_int zz5 (mult zz5 3 2) = some (x * y % zz5.p)) ∧
    ((3 : Int) = 0 ∨ (2 : Int) = 0 → mult zz5 3 2 = 0) ∧
    ((3 : Int) ≠ 0 → (2 : Int) ≠ 0 →
      1 ≤ mult zz5 3 2 ∧ mult zz5 3 2 ≤ zz5.p - 1 ∧
      mult zz5 3 2 ≡ 3 + 2 [ZMOD zz5.p - 1] ∧
      ∀ r : Int, 1 ≤ r → r ≤ zz5.p - 1 → r ≡ 3 + 2 [ZMOD zz5.p - 1] →
        r = mult zz5 3 2)) ∧
    mult zz5 3 2 = 1 ∧ get_int zz5 1 = some 2 :=
  ⟨zz5_inv, by decide,
    mult_is_modular_multiplication zz5 zz5_inv (by decide) 3 2 (by decide)
      (by decide) (by decide) (by decide),
    by decide, by decide⟩

/-! ## Distributivity -/

/-- C4 as stated fails: at the prime `p = 2^31 - 1`, with `a = b = p - 1`
and `c = 0`, `mult a b` is `-4` and `mult a c` is 0, and
`add (mult a b) (mult a c)` reads `exp_table` at `-4`, outside the table;
so it is not `mult a (add b c)`. -/
theorem distributivity_fails_at_int_max :
    TableInvariant zzM31 ∧ fits32 zzM31.p ∧
    mult zzM31 2147483646 2147483646 = -4 ∧ mult zzM31 2147483646 0 = 0 ∧
    add zzM31 (mult zzM31 2147483646 2147483646) (mult zzM31 2147483646 0)
      = none ∧
    ¬ (∀ R : ARingZZp, TableInvariant R → ∀ a b c : Int,
        0 ≤ a → a < R.p → 0 ≤ b → b < R.p → 0 ≤ c → c < R.p →
        ∃ s, add R b c = some s ∧
          add R (mult R a b) (mult R a c) = some (mult R a s)) := by
  refine ⟨zzM31_inv, by decide, by decide, by decide, by decide, ?_⟩
  intro hall
  obtain ⟨s, -, hs⟩ := hall zzM31 zzM31_inv 2147483646 2147483646 0 (by decide)
    (by decide) (by decide) (by decide) (by decide) (by decide)
  have hnone : add zzM31 (mult zzM31 2147483646 2147483646)
      (mult zzM31 2147483646 0) = none := by decide
  rw [hnone] at hs
  exact Option.noConfusion hs

/-- C4 amended: under the table invariant for a prime `p ≤ 2^30`, for
elements `a`, `b`, `c` of `[0,p-1]`, zero included, `mult a (add b c)` and
`add (mult a b) (mult a c)` are the same element. -/
theorem mult_distributes_over_add (R : ARingZZp) (h : TableInvariant R)
    (hsmall : R.p ≤ 1073741824)
    (a b c : Int) (ha0 : 0 ≤ a) (hap : a < R.p) (hb0 : 0 ≤ b) (hbp : b < R.p)
    (hc0 : 0 ≤ c) (hcp : c < R.p) :
    ∃ s, add R b c = some s ∧
      add R (mult R a b) (mult R a c) = some (mult R a s) := by
  have h2 := h.two_le
  have hp1 := h.p1_eq
  obtain ⟨x, hx, hx0, hxp, -⟩ := h.exp_spec ha0 hap
  obtain ⟨y, hy, hy0, hyp, -⟩ := h.exp_spec hb0 hbp
  obtain ⟨z, hz, hz0, hzp, -⟩ := h.exp_spec hc0 hcp
  obtain ⟨s, hs, hs0, hsp, -⟩ := h.add_exact_spec hy hy0 hyp hz hz0 hzp
  obtain ⟨-, -, ue⟩ := h.mult_exact_decode ha0 hap hb0 hbp hx hy
  obtain ⟨-, -, ve⟩ := h.mult_exact_decode ha0 hap hc0 hcp hx hz
  obtain ⟨t, ht, hts⟩ :=
    mult_exact_distributes_over_add_exact R h a b c ha0 hap hb0 hbp hc0 hcp
  obtain rfl : s = t := by
    rw [hs] at ht
    exact Option.some.inj ht
  refine ⟨s, ?_, ?_⟩
  · rw [add_eq_exact R hsmall hy hy0 hyp hz hz0 hzp]
    exact hs
  · rw [mult_eq_exact R hp1 hsmall ha0 hap hb0 hbp,
      mult_eq_exact R hp1 hsmall ha0 hap hc0 hcp,
      mult_eq_exact R hp1 hsmall ha0 hap hs0 hsp,
      add_eq_exact R hsmall ue (Int.emod_nonneg _ (by omega))
        (Int.emod_lt_of_pos _ (by omega)) ve (Int.emod_nonneg _ (by omega))
        (Int.emod_lt_of_pos _ (by omega))]
    exact hts

/-- C4 amended, at `p = 5`, primitive root 2, on the elements 3, 1, 3 (the
residues 3, 2, 3): `add 1 3` is the zero element, and both sides are 0. -/
theorem mult_distributes_over_add_witness :
    TableInvariant zz5 ∧ zz5.p ≤ 1073741824 ∧
    (∃ s, add zz5 1 3 = some s ∧
      add zz5 (mult zz5 3 1) (mult zz5 3 3) = some (mult zz5 3 s)) ∧
    add zz5 1 3 = some 0 ∧ add zz5 (mult zz5 3 1) (mult zz5 3 3) = some 0 :=
  ⟨zz5_inv, by decide,
    mult_distributes_over_add zz5 zz5_inv (by decide) 3 1 3 (by decide)
      (by decide) (by decide) (by decide) (by decide) (by decide),
    by decide, by decide⟩

/-! ## Inverses -/

/-- C5 as stated fails: at the prime `p = 2^31 - 1` the element `p - 1`
(the residue 1) has `invert` equal to `p - 1`, and `mult` of the two stores
the sum `2^32 - 4` as `-4` and returns `-4`, not `p - 1`. -/
theorem invert_mult_wraps_at_int_max :
    TableInvariant zzM31 ∧ fits32 zzM31.p ∧
    invert zzM31 2147483646 = 2147483646 ∧
    mult zzM31 2147483646 (invert zzM31 2147483646) = -4 ∧
    ¬ (∀ R : ARingZZp, TableInvariant R → ∀ e : Int, 1 ≤ e → e < R.p →
        mult R e (invert R e) = R.p - 1) := by
  refine ⟨zzM31_inv, by decide, by decide, by decide, ?_⟩
  intro hall
  have := hall zzM31 zzM31_inv 2147483646 (by decide) (by decide)
  revert this
  decide

/-- C5 amended: under the table invariant for a prime `p ≤ 2^30` (`p = 2`
included), for a nonzero element `e` of `[1,p-1]`, `invert e` is in
`[1,p-1]` and `mult e (invert e)` is `p - 1`, the element whose residue
is 1. -/
theorem invert_is_multiplicative_inverse (R : ARingZZp) (h : TableInvariant R)
    (hsmall : R.p ≤ 1073741824) (e : Int) (he1 : 1 ≤ e) (hep : e < R.p) :
    1 ≤ invert R e ∧ invert R e ≤ R.p - 1 ∧
      mult R e (invert R e) = R.p - 1 ∧ get_int R (R.p - 1) = some 1 ∧
      get_int R (mult R e (invert R e)) = some 1 := by
  obtain ⟨i1, i2, i3, i4, i5⟩ := invert_is_inverse_for_mult_exact R h e he1 hep
  rw [mult_eq_exact R h.p1_eq hsmall (by omega) hep (by omega) (by omega)]
  exact ⟨i1, i2, i3, i4, i5⟩

/-- C5 amended, at `p = 5`, primitive root 2, on the element 1 =
`fromInteger(2)`: its `invert` is the element 3, which decodes to the
residue 3; and at `p = 2` on the only nonzero element. -/
theorem invert_is_multiplicative_inverse_witness :
    TableInvariant zz5 ∧ zz5.p ≤ 1073741824 ∧
    (1 ≤ invert zz5 1 ∧ invert zz5 1 ≤ zz5.p - 1 ∧
      mult zz5 1 (invert zz5 1) = zz5.p - 1 ∧ get_int zz5 (zz5.p - 1) = some 1 ∧
      get_int zz5 (mult zz5 1 (invert zz5 1)) = some 1) ∧
    ((set_from_int zz5 2).bind fun a => get_int zz5 (invert zz5 a)) = some 3 ∧
    TableInvariant zz2 ∧ zz2.p ≤ 1073741824 ∧
    (1 ≤ invert zz2 1 ∧ invert zz2 1 ≤ zz2.p - 1 ∧
      mult zz2 1 (invert zz2 1) = zz2.p - 1 ∧ get_int zz2 (zz2.p - 1) = some 1 ∧
      get_int zz2 (mult zz2 1 (invert zz2 1)) = some 1) :=
  ⟨zz5_inv, by decide,
    invert_is_multiplicative_inverse zz5 zz5_inv (by decide) 1 (by decide)
      (by decide),
    by decide, zz2_inv, by decide,
    invert_is_multiplicative_inverse zz2 zz2_inv (by decide) 1 (by decide)
      (by decide)⟩

/-- C6 as stated fails: at the prime `p = 2^31 - 1`, `divide 2 3` is
`2 - 3 + p1 = p - 2`, and `mult (p - 2) 3` stores the sum `p + 1 = 2^31` as
`-2^31` and returns it, not the element 2. -/
theorem divide_mult_wraps_at_int_max :
    Nat.Prime zzM31.p.toNat ∧ zzM31.p1 = zzM31.p - 1 ∧ fits32 zzM31.p ∧
    divide zzM31 2 3 = 2147483645 ∧
    mult zzM31 (divide zzM31 2 3) 3 = -2147483648 ∧
    ¬ (∀ R : ARingZZp, Nat.Prime R.p.toNat → R.p1 = R.p - 1 → fits32 R.p →
        ∀ e f : Int, 1 ≤ e → e < R.p → 1 ≤ f → f < R.p →
          mult R (divide R e f) f = e) := by
  refine ⟨zzM31_inv.1, by decide, by decide, by decide, by decide, ?_⟩
  intro hall
  have := hall zzM31 zzM31_inv.1 (by decide) (by decide) 2 3 (by decide)
    (by decide) (by decide) (by decide)
  revert this
  decide

/-- C6 amended: when `p1` is `p - 1` and `p ≤ 2^30`, for nonzero elements
`e`, `f` of `[1,p-1]`, `divide e f` is in `[1,p-1]` and
`mult (divide e f) f` is `e`. This needs nothing of the tables and holds
for every such `p`, so for every prime `p ≤ 2^30`. -/
theorem divide_inverts_mult (R : ARingZZp) (hp1 : R.p1 = R.p - 1)
    (hsmall : R.p ≤ 1073741824) (e f : Int)
    (he1 : 1 ≤ e) (hep : e < R.p) (hf1 : 1 ≤ f) (hfp : f < R.p) :
    1 ≤ divide R e f ∧ divide R e f ≤ R.p - 1 ∧
      mult R (divide R e f) f = e := by
  obtain ⟨d1, d2, d3⟩ := divide_inverts_mult_exact R hp1 e f he1 hep hf1 hfp
  rw [mult_eq_exact R hp1 hsmall (by omega) (by omega) (by omega) hfp]
  exact ⟨d1, d2, d3⟩

/-- C6 amended, at `p = 5` on the elements 1 and 3: `divide 1 3` is 2 and
`mult 2 3` is 1. -/
theorem divide_inverts_mult_witness :
    zz5.p1 = zz5.p - 1 ∧ zz5.p ≤ 1073741824 ∧
    (1 ≤ divide zz5 1 3 ∧ divide zz5 1 3 ≤ zz5.p - 1 ∧
      mult zz5 (divide zz5 1 3) 3 = 1) ∧
    divide zz5 1 3 = 2 :=
  ⟨by decide, by decide,
    divide_inverts_mult zz5 (by decide) (by decide) 1 3 (by decide) (by decide)
      (by decide) (by decide),
    by decide⟩

/-! ## Subtraction -/

/-- C7 as stated fails: at the prime `p = 2^31 - 1`, primitive root 7, the
elements `p - 1` and 1 stand for the residues 1 and 7; `subtract` of them
is an element `r` of residue `1 - 7 + p = 2147483641`, and `add r 1` stores
the sum `2147483641 + 7 = 2^31` as `-2^31` and reads `log_table` there,
outside the table; so adding `f` back does not give `e`. -/
theorem add_back_wraps_at_int_max :
    TableInvariant zzM31 ∧ fits32 zzM31.p ∧
    get_int zzM31 2147483646 = some 1 ∧ get_int zzM31 1 = some 7 ∧
    wrap32 (2147483641 + 7) = -2147483648 ∧
    (∃ r, subtract zzM31 2147483646 1 = some r ∧
      get_int zzM31 r = some 2147483641 ∧ add zzM31 r 1 = none) ∧
    ¬ (∀ R : ARingZZp, TableInvariant R → ∀ e f : Int,
        0 ≤ e → e < R.p → 0 ≤ f → f < R.p →
        ∃ r, subtract R e f = some r ∧ add R r f = some e) := by
  have hx : zzM31.exp_table 2147483646 = some 1 := by decide
  have hy : zzM31.exp_table 1 = some 7 := by decide
  have key : ∃ r, subtract zzM31 2147483646 1 = some r ∧
      get_int zzM31 r = some 2147483641 ∧ add zzM31 r 1 = none := by
    obtain ⟨r, hr, -, -, hre⟩ :=
      zzM31_inv.subtract_exact_spec hx (by decide) (by decide) hy (by decide)
        (by decide)
    rw [← subtract_eq_exact zzM31 (by decide) hx (by decide) (by decide) hy
      (by decide) (by decide)] at hr
    have hval : ((1 : Int) - 7) % zzM31.p = 2147483641 := by decide
    rw [hval] at hre
    refine ⟨r, hr, hre, ?_⟩
    simp only [add, hre, hy, Option.bind_eq_bind, Option.some_bind]
    decide
  refine ⟨zzM31_inv, by decide, hx, hy, by decide, key, ?_⟩
  intro hall
  obtain ⟨r, hr, -, hnone⟩ := key
  obtain ⟨r', hr', hadd⟩ := hall zzM31 zzM31_inv 2147483646 1 (by decide)
    (by decide) (by decide) (by decide)
  rw [hr] at hr'
  obtain rfl : r = r' := Option.some.inj hr'
  rw [hnone] at hadd
  exact Option.noConfusion hadd

/-- C7 amended: under the table invariant for a prime `p` that fits a
32-bit `int`, for elements `e`, `f` of `[0,p-1]`, `subtract` returns an
element of `[0,p-1]` whose residue is the difference of the residues modulo
`p`, a value of `[0,p-1]`; and when `p ≤ 2^30`, adding `f` back gives
`e`. -/
theorem subtract_is_modular_subtraction (R : ARingZZp) (h : TableInvariant R)
    (hfit : fits32 R.p)
    (e f : Int) (he0 : 0 ≤ e) (hep : e < R.p) (hf0 : 0 ≤ f) (hfp : f < R.p) :
    ∃ x y r, get_int R e = some x ∧ get_int R f = some y ∧
      subtract R e f = some r ∧ 0 ≤ r ∧ r < R.p ∧
      get_int R r = some ((x - y) % R.p) ∧
      0 ≤ (x - y) % R.p ∧ (x - y) % R.p < R.p ∧
      (R.p ≤ 1073741824 → add R r f = some e) := by
  obtain ⟨x, hx, hx0, hxp, -⟩ := h.exp_spec he0 hep
  obtain ⟨y, hy, hy0, hyp, -⟩ := h.exp_spec hf0 hfp
  obtain ⟨x', y', r, hx', hy', hr, hr0, hrp, hre, hd0, hdp, hadd⟩ :=
    subtract_exact_is_modular_subtraction R h e f he0 hep hf0 hfp
  obtain rfl : x = x' := by
    have : R.exp_table e = some x' := hx'
    rw [hx] at this
    exact Option.some.inj this
  obtain rfl : y = y' := by
    have : R.exp_table f = some y' := hy'
    rw [hy] at this
    exact Option.some.inj this
  rw [← subtract_eq_exact R hfit hx hx0 hxp hy hy0 hyp] at hr
  refine ⟨x, y, r, hx, hy, hr, hr0, hrp, hre, hd0, hdp, ?_⟩
  intro hsmall
  rw [add_eq_exact R hsmall hre hd0 hdp hy hy0 hyp]
  exact hadd

/-- C7 amended, at `p = 5`, primitive root 2, on the elements 1 and 3 (the
residues 2 and 3): `subtract` is the element 2, the residue 4. -/
theorem subtract_is_modular_subtraction_witness :
    TableInvariant zz5 ∧ fits32 zz5.p ∧
    (∃ x y r, get_int zz5 1 = some x ∧ get_int zz5 3 = some y ∧
      subtract zz5 1 3 = some r ∧ 0 ≤ r ∧ r < zz5.p ∧
      get_int zz5 r = some ((x - y) % zz5.p) ∧
      0 ≤ (x - y) % zz5.p ∧ (x - y) % zz5.p < zz5.p ∧
      (zz5.p ≤ 1073741824 → add zz5 r 3 = some 1)) ∧
    subtract zz5 1 3 = some 2 ∧ get_int zz5 2 = some 4 ∧
    add zz5 2 3 = some 1 :=
  ⟨zz5_inv, by decide,
    subtract_is_modular_subtraction zz5 zz5_inv (by decide) 1 3 (by decide)
      (by decide) (by decide) (by decide),
    by decide, by decide, by decide⟩

/-! ## The fused subtraction -/

/-- C13: under the table invariant, for an accumulator `r` of `[0,p-1]` and
nonzero elements `a`, `b` of `[1,p-1]`, `subtract_multiple r a b` returns
what `subtract r (mult a b)` returns; and when `p ≤ 2^30` this is an
element of `[0,p-1]`, all table reads being in bounds. -/
theorem subtract_multiple_is_subtract_mult (R : ARingZZp) (h : TableInvariant R)
    (r a b : Int) (hr0 : 0 ≤ r) (hrp : r < R.p) (ha1 : 1 ≤ a) (hap : a < R.p)
    (hb1 : 1 ≤ b) (hbp : b < R.p) :
    subtract_multiple R r a b = subtract R r (mult R a b) ∧
    (R.p ≤ 1073741824 →
      ∃ s, subtract_multiple R r a b = some s ∧ 0 ≤ s ∧ s < R.p) := by
  constructor
  · have hm : mult R a b
        = if wrap32 (a + b) > R.p1 then wrap32 (wrap32 (a + b) - R.p1)
          else wrap32 (a + b) := by
      unfold mult
      rw [if_pos ⟨by omega, by omega⟩]
    rw [hm]
    rfl
  · intro hsmall
    obtain ⟨s, hs, hs0, hsp⟩ :=
      h.subtract_multiple_exact_spec hr0 hrp ha1 hap hb1 hbp
    rw [← h.subtract_multiple_eq_exact hsmall hr0 hrp (by omega) hap (by omega)
      hbp] at hs
    exact ⟨s, hs, hs0, hsp⟩

/-- C13 at `p = 5`, primitive root 2: accumulator 1 (residue 2), `a = 3`,
`b = 2` (residues 3 and 4, product 2): both give the zero element. -/
theorem subtract_multiple_is_subtract_mult_witness :
    TableInvariant zz5 ∧
    (subtract_multiple zz5 1 3 2 = subtract zz5 1 (mult zz5 3 2) ∧
      (zz5.p ≤ 1073741824 →
        ∃ s, subtract_multiple zz5 1 3 2 = some s ∧ 0 ≤ s ∧ s < zz5.p)) ∧
    subtract_multiple zz5 1 3 2 = some 0 ∧
    subtract zz5 1 (mult zz5 3 2) = some 0 :=
  ⟨zz5_inv,
    subtract_multiple_is_subtract_mult zz5 zz5_inv 1 3 2 (by decide) (by decide)
      (by decide) (by decide) (by decide) (by decide),
    by decide, by decide⟩

/-! ## Powers of residues -/

/-- C11 as stated fails: at `p = 7`, primitive root 3, the element 3 stands
for the residue 6; with the exponent `n = 2^30 ≥ 0` the product `3 * 2^30`
is stored in an `int` as `-2^30`, whose truncated remainder by 6 is `-4`,
and `power` returns the element 2, the residue 2; but `6^n` is 1 modulo 7,
`n` being even. -/
theorem power_residue_wraps_at_seven :
    TableInvariant zz7 ∧ get_int zz7 3 = some 6 ∧ fits32 1073741824 ∧
    ¬ fits32 (3 * 1073741824) ∧ wrap32 (3 * 1073741824) = -1073741824 ∧
    power zz7 3 1073741824 = 2 ∧
    get_int zz7 (power zz7 3 1073741824) = some 2 ∧
    (6 : Int) ^ (1073741824 : Int).toNat % zz7.p = 1 ∧
    ¬ (∀ R : ARingZZp, TableInvariant R → ∀ e n : Int,
        1 ≤ e → e < R.p → 0 ≤ n → fits32 n →
        ∃ x, get_int R e = some x ∧
          get_int R (power R e n) = some (x ^ n.toNat % R.p)) := by
  have hpow : (6 : Int) ^ (1073741824 : Int).toNat % zz7.p = 1 := by
    have h6 : (6 : Int) ≡ -1 [ZMOD 7] := by decide
    have h1 := h6.pow 1073741824
    rw [Even.neg_one_pow ⟨536870912, by norm_num⟩] at h1
    exact h1
  refine ⟨zz7_inv, by decide, by decide, by decide, by decide, by decide,
    by decide, hpow, ?_⟩
  intro hall
  obtain ⟨x, hx, hp⟩ := hall zz7 zz7_inv 3 1073741824 (by decide) (by decide)
    (by decide) (by decide)
  have hx6 : get_int zz7 3 = some 6 := by decide
  rw [hx6] at hx
  obtain rfl : 6 = x := Option.some.inj hx
  have h2 : get_int zz7 (power zz7 3 1073741824) = some 2 := by decide
  rw [h2, hpow] at hp
  exact absurd (Option.some.inj hp) (by decide)

/-- C11 amended: under the table invariant for a prime `p` that fits a
32-bit `int`, for a nonzero element `e` of `[1,p-1]` and an exponent
`n ≥ 0` whose product `e * n` fits a 32-bit `int`, the residue of
`power e n` is the `n`-th power of the residue of `e` modulo `p`; in
particular `power e 0` is `p - 1`, the element whose residue is 1, and so
is `power e (p-1)` when `e * (p-1)` fits a 32-bit `int`. -/
theorem power_is_modular_power (R : ARingZZp) (h : TableInvariant R)
    (hfit : fits32 R.p) (e n : Int)
    (he1 : 1 ≤ e) (hep : e < R.p) (hn : 0 ≤ n) (hprod : fits32 (e * n)) :
    ∃ x, get_int R e = some x ∧
      get_int R (power R e n) = some (x ^ n.toNat % R.p) ∧
      (fits32 (e * (R.p - 1)) → power R e (R.p - 1) = R.p - 1) ∧
      power R e 0 = R.p - 1 ∧
      get_int R (R.p - 1) = some 1 := by
  have h2 := h.two_le
  have hp1 := h.p1_eq
  obtain ⟨x, hx, hpw, hfer, hzero, hone⟩ :=
    power_exact_is_modular_power R h e n he1 hep hn
  refine ⟨x, hx, ?_, ?_, ?_, hone⟩
  · rw [power_eq_exact R h2 hp1 hfit n hprod]
    exact hpw
  · intro hf
    rw [power_eq_exact R h2 hp1 hfit (R.p - 1) hf]
    exact hfer
  · rw [power_eq_exact R h2 hp1 hfit 0 (by rw [mul_zero]; decide)]
    exact hzero

/-- C11 amended, at `p = 5`, primitive root 2: `fromInteger(3)` is the
element 3, `power 3 4` is the element 4, which decodes to the residue 1. -/
theorem power_is_modular_power_witness :
    TableInvariant zz5 ∧ fits32 zz5.p ∧ fits32 (3 * 4) ∧
    (∃ x, get_int zz5 3 = some x ∧
      get_int zz5 (power zz5 3 4) = some (x ^ (4 : Int).toNat % zz5.p) ∧
      (fits32 (3 * (zz5.p - 1)) → power zz5 3 (zz5.p - 1) = zz5.p - 1) ∧
      power zz5 3 0 = zz5.p - 1 ∧
      get_int zz5 (zz5.p - 1) = some 1) ∧
    ((set_from_int zz5 3).bind fun a => get_int zz5 (power zz5 a 4)) = some 1 :=
  ⟨zz5_inv, by decide, by decide,
    power_is_modular_power zz5 zz5_inv (by decide) 3 4 (by decide) (by decide)
      (by decide) (by decide),
    by decide⟩

/-! ## Rationals on the program -/

/-- C17 as stated fails: at the prime `p = 2^31 - 1`, for the rational
`1/1`, numerator and denominator are both encoded as the element `p - 1`
(the residue 1), `set_from_mpq` is `divide (p-1) (p-1) = p - 1`, and
`mult` of it and the encoded denominator stores `2^32 - 4` as `-4` and
returns `-4`, not the encoded numerator. -/
theorem rational_mult_wraps_at_int_max :
    TableInvariant zzM31 ∧ fits32 zzM31.p ∧ ¬ zzM31.p ∣ 1 ∧
    set_from_mpz zzM31 1 = some 2147483646 ∧
    set_from_mpq zzM31 1 1 = some 2147483646 ∧
    divide zzM31 2147483646 2147483646 = 2147483646 ∧
    mult zzM31 (divide zzM31 2147483646 2147483646) 2147483646 = -4 ∧
    ¬ (∀ R : ARingZZp, TableInvariant R → ∀ n d : Int, ¬ R.p ∣ d →
        ∃ en ed, set_from_mpz R n = some en ∧ set_from_mpz R d = some ed ∧
          mult R (divide R en ed) ed = en) := by
  have hone : set_from_mpz zzM31 1 = some 2147483646 := by
    obtain ⟨r, hr, hr0, hrp, hre⟩ := zzM31_inv.set_from_mpz_spec 1
    have hv : (1 : Int) % zzM31.p = 1 := by decide
    rw [hv] at hre
    have htop : zzM31.exp_table 2147483646 = some 1 := by decide
    have := zzM31_inv.exp_inj hr0 hrp (by decide) (by decide) hre htop
    rw [this] at hr
    exact hr
  have hq : set_from_mpq zzM31 1 1 = some 2147483646 := by
    simp only [set_from_mpq, hone, Option.bind_eq_bind, Option.some_bind]
    decide
  have hnd : ¬ zzM31.p ∣ 1 := by
    intro hd
    have := Int.le_of_dvd (by decide) hd
    revert this
    decide
  refine ⟨zzM31_inv, by decide, hnd, hone, hq, by decide, by decide, ?_⟩
  intro hall
  obtain ⟨en, ed, hen, hed, hm⟩ := hall zzM31 zzM31_inv 1 1 hnd
  rw [hone] at hen hed
  obtain rfl : 2147483646 = en := Option.some.inj hen
  obtain rfl : 2147483646 = ed := Option.some.inj hed
  revert hm
  decide

/-- C17 amended: under the table invariant, for a numerator `n` and a
denominator `d`, `set_from_mpq` is `divide` of the encodings of `n` and `d`
(floor remainder by `p`, then `log_table`). When `p` divides `d` it is the
zero element; when `p` does not divide `d` the residue `x` of the result
`r` has `x * d ≡ n` modulo `p`, and when moreover `p ≤ 2^30`,
`mult r (E d) = E n`. -/
theorem set_from_mpq_is_divide (R : ARingZZp) (h : TableInvariant R) (n d : Int) :
    ∃ en ed, set_from_mpz R n = some en ∧ set_from_mpz R d = some ed ∧
      R.log_table (Int.fmod n R.p) = some en ∧
      R.log_table (Int.fmod d R.p) = some ed ∧
      get_int R en = some (n % R.p) ∧ get_int R ed = some (d % R.p) ∧
      set_from_mpq R n d = some (divide R en ed) ∧
      (R.p ∣ d → divide R en ed = 0) ∧
      (¬ R.p ∣ d →
        (R.p ≤ 1073741824 → mult R (divide R en ed) ed = en) ∧
        ∃ x, get_int R (divide R en ed) = some x ∧ x * d ≡ n [ZMOD R.p]) := by
  have hp1 := h.p1_eq
  obtain ⟨en, ed, hen, hed, hln, hld, hgn, hgd, hq, hz, hnz⟩ :=
    set_from_mpq_is_divide_exact R h n d
  obtain ⟨en', hen', hn0, hnp, -⟩ := h.set_from_mpz_spec n
  obtain ⟨ed', hed', hd0, hdp, -⟩ := h.set_from_mpz_spec d
  obtain rfl : en = en' := by
    rw [hen] at hen'
    exact Option.some.inj hen'
  obtain rfl : ed = ed' := by
    rw [hed] at hed'
    exact Option.some.inj hed'
  refine ⟨en, ed, hen, hed, hln, hld, hgn, hgd, hq, hz, ?_⟩
  intro hnd
  obtain ⟨hm, hx⟩ := hnz hnd
  refine ⟨?_, hx⟩
  intro hsmall
  have hrange : 0 ≤ divide R en ed ∧ divide R en ed < R.p := by
    by_cases hc : en ≠ 0 ∧ ed ≠ 0
    · obtain ⟨d1, d2, -⟩ :=
        divide_spec R hp1 (by omega : 1 ≤ en) hnp (by omega : 1 ≤ ed) hdp
      exact ⟨by omega, d2⟩
    · have : divide R en ed = 0 := by
        unfold divide
        rw [if_neg hc]
      rw [this]
      exact ⟨le_refl _, by omega⟩
  rw [mult_eq_exact R hp1 hsmall hrange.1 hrange.2 hd0 hdp]
  exact hm

/-- C17 amended, at `p = 5`, primitive root 2: `3/2` is the element 2, the
residue 4, and `4 * 2 ≡ 3`; `1/5` is the zero element. -/
theorem set_from_mpq_is_divide_witness :
    TableInvariant zz5 ∧
    (∃ en ed, set_from_mpz zz5 3 = some en ∧ set_from_mpz zz5 2 = some ed ∧
      zz5.log_table (Int.fmod 3 zz5.p) = some en ∧
      zz5.log_table (Int.fmod 2 zz5.p) = some ed ∧
      get_int zz5 en = some (3 % zz5.p) ∧ get_int zz5 ed = some (2 % zz5.p) ∧
      set_from_mpq zz5 3 2 = some (divide zz5 en ed) ∧
      (zz5.p ∣ 2 → divide zz5 en ed = 0) ∧
      (¬ zz5.p ∣ 2 →
        (zz5.p ≤ 1073741824 → mult zz5 (divide zz5 en ed) ed = en) ∧
        ∃ x, get_int zz5 (divide zz5 en ed) = some x ∧ x * 2 ≡ 3 [ZMOD zz5.p])) ∧
    set_from_mpq zz5 3 2 = some 2 ∧ get_int zz5 2 = some 4 ∧
    set_from_mpq zz5 1 5 = some 0 ∧ set_from_mpq zz5 (-3) 2 = some 4 ∧
    mult zz5 2 1 = 3 :=
  ⟨zz5_inv, set_from_mpq_is_divide zz5 zz5_inv 3 2,
    by decide, by decide, by decide, by decide, by decide⟩

/-! ## The range of the operations -/

/-- C20 as stated fails: at the prime `p = 2^31 - 1`, `mult` of the
elements `p - 1` and `p - 2` stores the sum `2^32 - 5` as `-5` and returns
`-5`, outside `[0,p-1]` and outside `exp_table`; `subtract_multiple` on the
same elements reads `exp_table` at `-5`, and `add` of the element
`(p - 1) / 2` and itself reads `log_table` at `-4`. -/
theorem range_fails_at_int_max :
    TableInvariant zzM31 ∧ fits32 zzM31.p ∧
    mult zzM31 2147483646 2147483645 = -5 ∧
    get_int zzM31 (mult zzM31 2147483646 2147483645) = none ∧
    subtract_multiple zzM31 0 2147483646 2147483645 = none ∧
    add zzM31 1073741823 1073741823 = none ∧
    ¬ (∀ R : ARingZZp, TableInvariant R → ∀ e f : Int,
        0 ≤ e → e < R.p → 0 ≤ f → f < R.p → 0 ≤ mult R e f) := by
  refine ⟨zzM31_inv, by decide, by decide, by decide, by decide, by decide, ?_⟩
  intro hall
  have := hall zzM31 zzM31_inv 2147483646 2147483645 (by decide) (by decide)
    (by decide) (by decide)
  revert this
  decide

/-- C20 amended: under the table invariant for a prime `p ≤ 2^30`, for
elements `e`, `f`, `r` of `[0,p-1]` and any integer `n`: `negate`, `mult`,
`divide`, `power` return a value of `[0,p-1]`; `add`, `subtract`,
`set_from_int` read their tables in bounds and return a value of
`[0,p-1]`, and so does `subtract_multiple` on nonzero `e`, `f`; `invert`
returns a value of `[1,p-1]`, and so do `mult`, `divide` and `power` on
nonzero element operands. -/
theorem operations_stay_in_range (R : ARingZZp) (h : TableInvariant R)
    (hsmall : R.p ≤ 1073741824)
    (e f r n : Int) (he0 : 0 ≤ e) (hep : e < R.p) (hf0 : 0 ≤ f) (hfp : f < R.p)
    (hr0 : 0 ≤ r) (hrp : r < R.p) :
    (0 ≤ negate R e ∧ negate R e < R.p) ∧
    (1 ≤ invert R e ∧ invert R e < R.p) ∧
    (∃ s, add R e f = some s ∧ 0 ≤ s ∧ s < R.p) ∧
    (∃ s, subtract R e f = some s ∧ 0 ≤ s ∧ s < R.p) ∧
    (0 ≤ mult R e f ∧ mult R e f < R.p) ∧
    (0 ≤ divide R e f ∧ divide R e f < R.p) ∧
    (0 ≤ power R e n ∧ power R e n < R.p) ∧
    (∃ s, set_from_int R n = some s ∧ 0 ≤ s ∧ s < R.p) ∧
    (e ≠ 0 → f ≠ 0 →
      ∃ s, subtract_multiple R r e f = some s ∧ 0 ≤ s ∧ s < R.p) ∧
    (e ≠ 0 → f ≠ 0 → 1 ≤ mult R e f ∧ 1 ≤ divide R e f) ∧
    (e ≠ 0 → 1 ≤ power R e n) := by
  have h2 := h.two_le
  have hp1 := h.p1_eq
  have hfit : fits32 R.p := ⟨by omega, by omega⟩
  obtain ⟨x, hx, hx0, hxp, -⟩ := h.exp_spec he0 hep
  obtain ⟨y, hy, hy0, hyp, -⟩ := h.exp_spec hf0 hfp
  obtain ⟨hneg, hinv, hadd, hsub, hmul, hdiv, -, hset, hsm, hnz, -⟩ :=
    operations_stay_in_range_exact R h e f r n he0 hep hf0 hfp hr0 hrp
  have hpw : 0 ≤ power R e n ∧ power R e n < R.p ∧ (e ≠ 0 → 1 ≤ power R e n) := by
    by_cases hz : e ≠ 0
    · obtain ⟨q1, q2⟩ := power_range R h2 hp1 hfit n hz
      exact ⟨by omega, by omega, fun _ => q1⟩
    · have : power R e n = 0 := by
        unfold power
        rw [if_neg hz]
      rw [this]
      exact ⟨le_refl _, by omega, fun h1 => absurd h1 hz⟩
  rw [add_eq_exact R hsmall hx hx0 hxp hy hy0 hyp,
    subtract_eq_exact R hfit hx hx0 hxp hy hy0 hyp,
    mult_eq_exact R hp1 hsmall he0 hep hf0 hfp,
    h.subtract_multiple_eq_exact hsmall hr0 hrp he0 hep hf0 hfp]
  exact ⟨hneg, hinv, hadd, hsub, hmul, hdiv, ⟨hpw.1, hpw.2.1⟩, hset, hsm, hnz,
    hpw.2.2⟩

/-- C20 amended, at `p = 5`, primitive root 2, on the elements 3, 4, the
accumulator 1 and the exponent -7. -/
theorem operations_stay_in_range_witness :
    TableInvariant zz5 ∧ zz5.p ≤ 1073741824 ∧
    ((0 ≤ negate zz5 3 ∧ negate zz5 3 < zz5.p) ∧
    (1 ≤ invert zz5 3 ∧ invert zz5 3 < zz5.p) ∧
    (∃ s, add zz5 3 4 = some s ∧ 0 ≤ s ∧ s < zz5.p) ∧
    (∃ s, subtract zz5 3 4 = some s ∧ 0 ≤ s ∧ s < zz5.p) ∧
    (0 ≤ mult zz5 3 4 ∧ mult zz5 3 4 < zz5.p) ∧
    (0 ≤ divide zz5 3 4 ∧ divide zz5 3 4 < zz5.p) ∧
    (0 ≤ power zz5 3 (-7) ∧ power zz5 3 (-7) < zz5.p) ∧
    (∃ s, set_from_int zz5 (-7) = some s ∧ 0 ≤ s ∧ s < zz5.p) ∧
    ((3 : Int) ≠ 0 → (4 : Int) ≠ 0 →
      ∃ s, subtract_multiple zz5 1 3 4 = some s ∧ 0 ≤ s ∧ s < zz5.p) ∧
    ((3 : Int) ≠ 0 → (4 : Int) ≠ 0 → 1 ≤ mult zz5 3 4 ∧ 1 ≤ divide zz5 3 4) ∧
    ((3 : Int) ≠ 0 → 1 ≤ power zz5 3 (-7))) ∧
    power zz5 3 (-7) = 3 ∧ divide zz5 3 4 = 3 ∧ mult zz5 3 4 = 3 :=
  ⟨zz5_inv, by decide,
    operations_stay_in_range zz5 zz5_inv (by decide) 3 4 1 (-7) (by decide)
      (by decide) (by decide) (by decide) (by decide) (by decide),
    by decide, by decide, by decide⟩

end ARingZZp

end M2
